import Mathlib

/-!
# FCModel: a shallow embedding of the feed-forward network core

The C++ sources (`FFNode.cpp`, `CCELossNode.cpp`, `GDOptimizer.cpp`, `Model.cpp`)
are translated function by function.

* `float` is modelled by an arbitrary linearly ordered field `α`; the theorems
  instantiate it with `ℝ` (or evaluate over `ℚ`).  `exp` and `log` from `<cmath>`
  are arguments of the functions that call them, instantiated by `Real.exp` and
  `Real.log`.
* `std::vector<float>` is a `List α`; a `float*` handed to `forward`/`reverse`
  is the content of the buffer it points to, also a `List α`.
* `v[i]` is `rd v i`; a store `v[i] = x` is `List.set`.  Indices outside the
  vector do not occur for nodes satisfying `FFNode.wf` (the sizes the
  constructor establishes) with fewer than `2^31` parameters.
* a counted `for` loop is `forLoop`, its state being the variables it writes.
* `size_t` and `uint16_t` quantities are natural numbers; the products of two
  sizes, which the source computes in `int`, are modelled exactly, that is in
  the range where C++ defines them.  `FFNode.param_count` is this exact value;
  `FFNode.param_count_size_t` is the value `param_count()` returns with the
  `int` product wrapped to 32 bits, and the two agree below `2^31`.
* a pointer returned by `param` or `gradient` is an `FFRef`, the null pointer of
  the base class is `none`; it is never dereferenced, since these nodes have
  `param_count() = 0`.
* `FFNode.forward`, `FFNode.reverse`, `CCELossNode.forward` and
  `CCELossNode.reverse` are the node-local parts of these functions; the loops
  at their end, which call the neighbouring nodes, are in `Model.forward` and
  `Model.reverse`, where a `Node*` is the position of the node in `nodes_` and
  `fuel` bounds the depth of the calls.
* a quotient whose divisor can be zero in a reachable state is `fdiv`: it has no
  value in `α` (IEEE-754 gives an infinity or NaN) and the function yields
  `none`.  The loop of `CCELossNode::reverse` is also given element by element,
  as `CCELossNode.reverse_gradients`, where such a quotient leaves the other
  elements as the loop stores them.
* the counters `correct_` and `incorrect_` are natural numbers (a run cannot
  reach `2⁶⁴` calls), and their conversion to `float` is exact.
-/

namespace FCModel

set_option linter.unusedSectionVars false

variable {α : Type} [LinearOrderedField α]

/-! ## The program -/

/-- Counted loop `for (size_t i = 0; i != n; i++) body`: runs `body 0`, `body 1`,
up to `body (n - 1)` in this order on the loop state. -/
def forLoop {σ : Type} : Nat → (Nat → σ → σ) → σ → σ
  | 0, _, s => s
  | n + 1, body, s => body n (forLoop n body s)

/-- Read `v[i]` of a buffer. -/
def rd (v : List α) (i : Nat) : α := v.getD i 0

/-- The `enum class Activation` of `FFNode.h`. -/
inductive Activation where
  | ReLU
  | Softmax
  deriving DecidableEq, Repr

/-- Data members of `class FFNode` (`FFNode.h`). -/
structure FFNode (α : Type) where
  activation_ : Activation
  output_size_ : Nat
  input_size_ : Nat
  weights_ : List α
  biases_ : List α
  activations_ : List α
  weight_gradients_ : List α
  bias_gradients_ : List α
  activation_gradients_ : List α
  input_gradients_ : List α
  last_input_ : List α

/-- Constructor `FFNode::FFNode`: every vector is resized (value-initialised,
so zero-filled) to the size given there; `last_input_` is not initialised and
is taken as given. -/
def FFNode.new (activation : Activation) (output_size input_size : Nat)
    (last_input : List α) : FFNode α where
  activation_ := activation
  output_size_ := output_size
  input_size_ := input_size
  weights_ := List.replicate (output_size * input_size) 0
  biases_ := List.replicate output_size 0
  activations_ := List.replicate output_size 0
  weight_gradients_ := List.replicate (output_size * input_size) 0
  bias_gradients_ := List.replicate output_size 0
  activation_gradients_ := List.replicate output_size 0
  input_gradients_ := List.replicate input_size 0
  last_input_ := last_input

/-- The sizes established by the constructor and never changed afterwards. -/
structure FFNode.wf (n : FFNode α) : Prop where
  weights_size : n.weights_.length = n.output_size_ * n.input_size_
  biases_size : n.biases_.length = n.output_size_
  activations_size : n.activations_.length = n.output_size_
  weight_gradients_size : n.weight_gradients_.length = n.output_size_ * n.input_size_
  bias_gradients_size : n.bias_gradients_.length = n.output_size_
  activation_gradients_size : n.activation_gradients_.length = n.output_size_
  input_gradients_size : n.input_gradients_.length = n.input_size_

/-- The pre-activation `z` of output unit `i` in `FFNode::forward`: the inner
loop `z += weights_[offset + j] * inputs[j]` from `z = 0`, then `z += biases_[i]`. -/
def FFNode.z (n : FFNode α) (inputs : List α) (i : Nat) : α :=
  let offset := i * n.input_size_
  let z := forLoop n.input_size_ (fun j z => z + rd n.weights_ (offset + j) * rd inputs j) 0
  z + rd n.biases_ i

/-- Node-local part of `FFNode::forward` (everything before the loop that hands
`activations_` to the subsequent nodes). -/
def FFNode.forward (exp : α → α) (n : FFNode α) (inputs : List α) : FFNode α :=
  let activations :=
    forLoop n.output_size_ (fun i activations =>
      let z := n.z inputs i
      match n.activation_ with
      | Activation.ReLU => activations.set i (max z 0)
      | Activation.Softmax => activations.set i (exp z)) n.activations_
  let activations :=
    if n.activation_ = Activation.Softmax then
      let sum_exp_z := forLoop n.output_size_ (fun i s => s + rd activations i) 0
      let inv_sum_exp_z := 1 / sum_exp_z
      forLoop n.output_size_ (fun i a => a.set i (rd a i * inv_sum_exp_z)) activations
    else activations
  { n with last_input_ := inputs, activations_ := activations }

/-- Node-local part of `FFNode::reverse` (everything before the loop that hands
`input_gradients_` to the antecedent nodes). -/
def FFNode.reverse (n : FFNode α) (gradients : List α) : FFNode α :=
  let activation_gradients :=
    forLoop n.output_size_ (fun i ag =>
      match n.activation_ with
      | Activation.ReLU =>
        let activation_grad : α := if rd n.activations_ i > 0 then 0 else 1
        ag.set i (rd gradients i * activation_grad)
      | Activation.Softmax =>
        let activation_grad : α :=
          forLoop n.output_size_ (fun j acc =>
            if i = j then
              acc + rd n.activations_ i * (1 - rd n.activations_ i) * rd gradients j
            else
              acc + -rd n.activations_ i * rd n.activations_ j * rd gradients j) 0
        ag.set i activation_grad) n.activation_gradients_
  let bias_gradients :=
    forLoop n.output_size_ (fun i bg => bg.set i (rd bg i + rd activation_gradients i))
      n.bias_gradients_
  let input_gradients : List α := n.input_gradients_.map (fun _ => 0)
  let input_gradients :=
    forLoop n.output_size_ (fun i ig =>
      let offset := i * n.input_size_
      forLoop n.input_size_ (fun j ig =>
        ig.set j (rd ig j + rd n.weights_ (offset + j) * rd activation_gradients i)) ig)
      input_gradients
  let weight_gradients :=
    forLoop n.input_size_ (fun i wg =>
      forLoop n.output_size_ (fun j wg =>
        wg.set (j * n.input_size_ + i)
          (rd wg (j * n.input_size_ + i) + rd n.last_input_ i * rd activation_gradients j)) wg)
      n.weight_gradients_
  { n with
    activation_gradients_ := activation_gradients
    bias_gradients_ := bias_gradients
    input_gradients_ := input_gradients
    weight_gradients_ := weight_gradients }

/-- The value of `FFNode::param_count`, `(input_size_ + 1) * output_size_`, as
an exact product: what the function returns while the product is below `2^31`
(see `FFNode.param_count_size_t` for the value returned in general). -/
def FFNode.param_count (n : FFNode α) : Nat :=
  (n.input_size_ + 1) * n.output_size_

/-- A `float*` into the storage of an `FFNode`, as returned by `FFNode::param`
and `FFNode::gradient`: `weights_ k` is `&weights_[k]`, and so on. -/
inductive FFRef where
  | weights_ (index : Nat)
  | biases_ (index : Nat)
  | weight_gradients_ (index : Nat)
  | bias_gradients_ (index : Nat)
  deriving DecidableEq, Repr

/-- The pointer returned by `FFNode::param`. -/
def FFNode.param (n : FFNode α) (index : Nat) : FFRef :=
  if index < n.weights_.length then FFRef.weights_ index
  else FFRef.biases_ (index - n.weights_.length)

/-- The pointer returned by `FFNode::gradient`. -/
def FFNode.gradient (n : FFNode α) (index : Nat) : FFRef :=
  if index < n.weights_.length then FFRef.weight_gradients_ index
  else FFRef.bias_gradients_ (index - n.weights_.length)

/-- The pointer designates an element of the vector it points into. -/
def FFRef.inBounds (n : FFNode α) : FFRef → Prop
  | FFRef.weights_ k => k < n.weights_.length
  | FFRef.biases_ k => k < n.biases_.length
  | FFRef.weight_gradients_ k => k < n.weight_gradients_.length
  | FFRef.bias_gradients_ k => k < n.bias_gradients_.length

/-- `std::numeric_limits<float>::epsilon()` for IEEE-754 single precision: the
gap between `1` and the next representable value, `2⁻²³`. -/
def float_epsilon : α := 1 / 2 ^ 23

/-- `std::numeric_limits<float>::min()`: the smallest positive normal single
precision value, `2⁻¹²⁶`. -/
def float_min : α := 1 / 2 ^ 126

/-- `std::numeric_limits<float>::denorm_min()`: the smallest positive single
precision value, `2⁻¹⁴⁹`. -/
def float_denorm_min : α := 1 / 2 ^ 149

/-- Data members of `class CCELossNode` (`CCELossNode.h`).  `target_` and
`last_input_` are the contents of the buffers the two pointers designate. -/
structure CCELossNode (α : Type) where
  input_size_ : Nat
  inv_batch_size_ : α
  loss_ : α
  target_ : List α
  last_input_ : List α
  active_ : Nat
  cummulative_loss_ : α
  correct_ : Nat
  incorrect_ : Nat
  gradients_ : List α

/-- Constructor `CCELossNode::CCELossNode`: `inv_batch_size_` is
`1 / batch_size`, `gradients_` is resized to `input_size`, the three score
members start at zero; `loss_`, `target_`, `last_input_` and `active_` are not
initialised and are taken as given. -/
def CCELossNode.new (input_size batch_size : Nat) (loss : α) (target last_input : List α)
    (active : Nat) : CCELossNode α where
  input_size_ := input_size
  inv_batch_size_ := 1 / (batch_size : α)
  loss_ := loss
  target_ := target
  last_input_ := last_input
  active_ := active
  cummulative_loss_ := 0
  correct_ := 0
  incorrect_ := 0
  gradients_ := List.replicate input_size 0

/-- The function `CCELossNode::set_target`. -/
def CCELossNode.set_target (n : CCELossNode α) (target : List α) : CCELossNode α :=
  { n with target_ := target }

/-- The variables written by the loop of `CCELossNode::forward`.  The local
`max_index` is declared without an initialiser: `none` until first assigned. -/
structure CCEScan (α : Type) where
  max : α
  max_index : Option Nat
  loss_ : α
  active_ : Nat

/-- One iteration of the loop of `CCELossNode::forward`. -/
def CCELossNode.forwardStep (log : α → α) (n : CCELossNode α) (data : List α)
    (i : Nat) (s : CCEScan α) : CCEScan α :=
  let s := if rd data i > s.max then { s with max_index := some i, max := rd data i } else s
  let s := { s with loss_ := s.loss_ - rd n.target_ i * log (Max.max (rd data i) float_epsilon) }
  if rd n.target_ i ≠ 0 then { s with active_ := i } else s

/-- The loop of `CCELossNode::forward`, from `max = 0`, `max_index`
unassigned and `loss_ = 0`. -/
def CCELossNode.forwardScan (log : α → α) (n : CCELossNode α) (data : List α) : CCEScan α :=
  forLoop n.input_size_ (n.forwardStep log data)
    { max := 0, max_index := none, loss_ := 0, active_ := n.active_ }

/-- The function `CCELossNode::forward`.  `uninit` is the indeterminate content of
the local `max_index`, read by the comparison when the loop never assigned it. -/
def CCELossNode.forward (log : α → α) (uninit : Nat) (n : CCELossNode α)
    (data : List α) : CCELossNode α :=
  let s := n.forwardScan log data
  let max_index := s.max_index.getD uninit
  let n := { n with loss_ := s.loss_, active_ := s.active_ }
  let n :=
    if max_index = n.active_ then { n with correct_ := n.correct_ + 1 }
    else { n with incorrect_ := n.incorrect_ + 1 }
  { n with cummulative_loss_ := n.cummulative_loss_ + n.loss_, last_input_ := data }

/-- Data members of `class MNIST` (`MNIST.h`) that the graph reads: the sample
count, the image buffer and the one-hot label buffer. -/
structure MNIST (α : Type) where
  image_count_ : Nat
  data_ : List α
  label_ : List α

/-- The dynamic type of a node with the members of the derived class. -/
inductive Derived (α : Type) where
  | mnist (m : MNIST α)
  | ff (n : FFNode α)
  | cce (n : CCELossNode α)

/-- Members of the base `class Node` (`Model.h`) together with the derived
object.  A `Node*` is the position of the node in `Model::nodes_`. -/
structure Node (α : Type) where
  name_ : String
  antecedents_ : List Nat
  subsequents_ : List Nat
  self : Derived α

/-- Virtual `param_count`: overridden by `FFNode` only, `0` in the base class. -/
def Node.param_count (node : Node α) : Nat :=
  match node.self with
  | Derived.ff n => n.param_count
  | _ => 0

/-- Virtual `param`: overridden by `FFNode` only; the base class returns
`nullptr`, here `none`. -/
def Node.param (node : Node α) (index : Nat) : Option FFRef :=
  match node.self with
  | Derived.ff n => some (n.param index)
  | _ => none

/-- Virtual `gradient`: overridden by `FFNode` only; the base class returns
`nullptr`, here `none`. -/
def Node.gradient (node : Node α) (index : Nat) : Option FFRef :=
  match node.self with
  | Derived.ff n => some (n.gradient index)
  | _ => none

/-- Sizes of the owned vectors of a node, as its constructor establishes them. -/
def Node.wf (node : Node α) : Prop :=
  match node.self with
  | Derived.ff n => n.wf
  | _ => True

/-- Data members of `class Model` (`Model.h`). -/
structure Model (α : Type) where
  name_ : String
  nodes_ : List (Node α)

/-- Division `a / b` of two `float`s.  For `b = 0` the IEEE-754 quotient is an
infinity or NaN, which is no element of the field `α`: the result is `none`. -/
def fdiv (a b : α) : Option α :=
  if b = 0 then none else some (a / b)

/-- The size of `gradients_` established by the constructor of `CCELossNode`. -/
def CCELossNode.wf (n : CCELossNode α) : Prop :=
  n.gradients_.length = n.input_size_

/-- Node-local part of `CCELossNode::reverse` (everything before the loop that
hands `gradients_` to the antecedent nodes).  The argument is not used.  The
result is `none` when one of the quotients has no value in `α`: then
`gradients_` is no list of elements of `α`, and
`CCELossNode.reverse_gradients` gives its elements one by one. -/
def CCELossNode.reverse (n : CCELossNode α) (_data : List α) : Option (CCELossNode α) :=
  let gradients :=
    forLoop n.input_size_ (fun i (g : Option (List α)) =>
      g.bind (fun g =>
        (fdiv (-n.inv_batch_size_ * rd n.target_ i) (rd n.last_input_ i)).map
          (fun q => g.set i q))) (some n.gradients_)
  gradients.map (fun g => { n with gradients_ := g })

/-- The function `CCELossNode::accuracy`; `none` when the quotient has no value in `α`. -/
def CCELossNode.accuracy (n : CCELossNode α) : Option α :=
  fdiv (n.correct_ : α) ((n.correct_ + n.incorrect_ : Nat) : α)

/-- The function `CCELossNode::avg_loss`; `none` when the quotient has no value in `α`. -/
def CCELossNode.avg_loss (n : CCELossNode α) : Option α :=
  fdiv n.cummulative_loss_ ((n.correct_ + n.incorrect_ : Nat) : α)

/-- The function `CCELossNode::reset_score`. -/
def CCELossNode.reset_score (n : CCELossNode α) : CCELossNode α :=
  { n with cummulative_loss_ := 0, correct_ := 0, incorrect_ := 0 }

/-- Apply `f` to the node a `Node&` or `Node*` designates, the node at position
`p` of `nodes_`; a position outside `nodes_` designates no node of the model. -/
def Model.updateNode (m : Model α) (p : Nat) (f : Node α → Node α) : Model α :=
  match m.nodes_[p]? with
  | some node => { m with nodes_ := m.nodes_.set p (f node) }
  | none => m

/-- The function `Model::create_edge`, `dst` and `src` being the positions of the
two nodes in `nodes_`. -/
def Model.create_edge (m : Model α) (dst src : Nat) : Model α :=
  let m := m.updateNode dst (fun node => { node with antecedents_ := node.antecedents_ ++ [src] })
  m.updateNode src (fun node => { node with subsequents_ := node.subsequents_ ++ [dst] })

/-- The function template `Model::add_node`: the node is constructed at the end
of `nodes_`; the constructor of `Node` leaves both adjacency lists empty. -/
def Model.add_node (m : Model α) (name : String) (self : Derived α) : Model α :=
  { m with nodes_ := m.nodes_ ++
      [{ name_ := name, antecedents_ := [], subsequents_ := [], self := self }] }

/-- The buffer a node hands to its neighbours, read when the call is made:
`activations_.data()` of an `FFNode` and `data_` of `MNIST` in `forward`. -/
def Model.outputAt (m : Model α) (p : Nat) : List α :=
  match m.nodes_[p]? with
  | some node =>
    match node.self with
    | Derived.ff n => n.activations_
    | Derived.mnist d => d.data_
    | Derived.cce _ => []
  | none => []

/-- The buffer a node hands to its antecedents in `reverse`, read when the call
is made: `input_gradients_.data()` of an `FFNode`, `gradients_.data()` of a
`CCELossNode`. -/
def Model.gradientAt (m : Model α) (p : Nat) : List α :=
  match m.nodes_[p]? with
  | some node =>
    match node.self with
    | Derived.ff n => n.input_gradients_
    | Derived.cce c => c.gradients_
    | Derived.mnist _ => []
  | none => []

/-- A loop `for (Node* node : list) node->call(buffer)` over an adjacency list;
`none` as soon as one call yields `none`. -/
def Model.propagate (call : Model α → Nat → Option (Model α)) :
    List Nat → Model α → Option (Model α)
  | [], m => some m
  | q :: rest, m =>
    match call m q with
    | some m' => Model.propagate call rest m'
    | none => none

/-- Modelled from the spec: node-local part of `MNIST::forward`, whose definition
(`MNIST.cpp`) is not among the sources.  The input source ignores its argument;
its data buffer is what it hands to every subsequent node. -/
def MNIST.forward (d : MNIST α) (_data : List α) : MNIST α := d

/-- The virtual call `forward(inputs)` on the node at position `p`, with the
calls it makes on the subsequent nodes.  `fuel` bounds the depth of the calls
(`none` when it is exhausted or `p` designates no node).
`CCELossNode::forward` calls no other node. -/
def Model.forward (exp log : α → α) (uninit : Nat) :
    Nat → Model α → Nat → List α → Option (Model α)
  | 0, _, _, _ => none
  | fuel + 1, m, p, inputs =>
    match m.nodes_[p]? with
    | none => none
    | some node =>
      match node.self with
      | Derived.ff n =>
        let m := m.updateNode p (fun node =>
          { node with self := Derived.ff (n.forward exp inputs) })
        Model.propagate
          (fun m q => Model.forward exp log uninit fuel m q (m.outputAt p)) node.subsequents_ m
      | Derived.cce c =>
        some (m.updateNode p (fun node =>
          { node with self := Derived.cce (c.forward log uninit inputs) }))
      | Derived.mnist d =>
        let m := m.updateNode p (fun node =>
          { node with self := Derived.mnist (d.forward inputs) })
        Model.propagate
          (fun m q => Model.forward exp log uninit fuel m q (m.outputAt p)) node.subsequents_ m

/-- The virtual call `reverse(gradients)` on the node at position `p`, with the
calls it makes on the antecedent nodes.  `fuel` bounds the depth of the calls.
`MNIST::reverse` has an empty body (`MNIST.h`). -/
def Model.reverse : Nat → Model α → Nat → List α → Option (Model α)
  | 0, _, _, _ => none
  | fuel + 1, m, p, gradients =>
    match m.nodes_[p]? with
    | none => none
    | some node =>
      match node.self with
      | Derived.ff n =>
        let m := m.updateNode p (fun node =>
          { node with self := Derived.ff (n.reverse gradients) })
        Model.propagate
          (fun m q => Model.reverse fuel m q (m.gradientAt p)) node.antecedents_ m
      | Derived.cce c =>
        match c.reverse gradients with
        | none => none
        | some c' =>
          let m := m.updateNode p (fun node => { node with self := Derived.cce c' })
          Model.propagate
            (fun m q => Model.reverse fuel m q (m.gradientAt p)) node.antecedents_ m
      | Derived.mnist _ => some m

/-- The graph of `create_model` (`main.cpp`) for given node objects: the four
nodes are added in the order input, hidden, output, loss, then the three edges
`hidden <- input`, `output <- hidden`, `loss <- output` are created. -/
def create_model (mnist : MNIST α) (hidden output : FFNode α) (loss : CCELossNode α) :
    Model α :=
  let model : Model α := { name_ := "ff", nodes_ := [] }
  let model := model.add_node "mnist" (Derived.mnist mnist)
  let model := model.add_node "hidden" (Derived.ff hidden)
  let model := model.add_node "output" (Derived.ff output)
  let model := model.add_node "loss" (Derived.cce loss)
  let model := model.create_edge 1 0
  let model := model.create_edge 2 1
  model.create_edge 3 2

/-- The product of two `int` values in 32-bit two's complement `int`
arithmetic: the exact product where it fits, wrapped around otherwise. -/
def int_mul (a b : Int) : Int := (a * b + 2 ^ 31) % 2 ^ 32 - 2 ^ 31

/-- Conversion of an `int` to the 64-bit `size_t`: the value modulo `2^64`. -/
def size_t_of_int (z : Int) : Nat := (z % 2 ^ 64).toNat

/-- The function `FFNode::param_count` (`FFNode.h`) with the integer types of
the source: `input_size_` and `output_size_` are `uint16_t` and are promoted to
`int`, `(input_size_ + 1) * output_size_` is evaluated in `int`, and the result
is converted to the return type `size_t`. -/
def FFNode.param_count_size_t (n : FFNode α) : Nat :=
  size_t_of_int (int_mul ((n.input_size_ : Int) + 1) (n.output_size_ : Int))

/-- The loop of `CCELossNode::reverse` element by element: the content of
`gradients_` after the loop.  Each iteration stores its own quotient, whatever
the other iterations compute; an element is `none` where the quotient has no
value in `α` (IEEE-754 stores an infinity or NaN there).  The argument is not
used. -/
def CCELossNode.reverse_gradients (n : CCELossNode α) (_data : List α) : List (Option α) :=
  forLoop n.input_size_ (fun i (g : List (Option α)) =>
    g.set i (fdiv (-n.inv_batch_size_ * rd n.target_ i) (rd n.last_input_ i)))
    (n.gradients_.map some)

/-! ## Auxiliary definitions of the proofs -/

/-- A loss node of width one bound to the target `[1]`. -/
def unitLoss : CCELossNode α :=
  (CCELossNode.new 1 1 0 [] [] 0).set_target [1]

/-- A ReLU layer with two inputs and two outputs, `W = [[1, 2], [3, -4]]`,
`b = [1, 1]`, freshly constructed otherwise. -/
def sampleReLU : FFNode α :=
  { (FFNode.new Activation.ReLU 2 2 [] : FFNode α) with
    weights_ := [1, 2, 3, -4], biases_ := [1, 1] }

/-- A Softmax layer with two inputs and two outputs, `W = [[1, 2], [3, -4]]`,
`b = [1, 1]`, freshly constructed otherwise. -/
def sampleSoftmax : FFNode α :=
  { (FFNode.new Activation.Softmax 2 2 [] : FFNode α) with
    weights_ := [1, 2, 3, -4], biases_ := [1, 1] }

/-- A ReLU layer with one input and one output, weight `1` and bias `b`,
freshly constructed otherwise. -/
def unitReLU (b : α) : FFNode α :=
  { (FFNode.new Activation.ReLU 1 1 [] : FFNode α) with weights_ := [1], biases_ := [b] }

/-- A loss node of width two, batch size one, bound to the target `[1, 0]`,
whose last input is `[1, 0]`. -/
def zeroInputLoss : CCELossNode α :=
  { (CCELossNode.new 2 1 0 [] [1, 0] 0 : CCELossNode α) with target_ := [1, 0] }

/-- A loss node of width two, batch size two, bound to the target `[1, 0]`,
whose last input is `[1/2, 1/2]`. -/
def halfInputLoss : CCELossNode α :=
  { (CCELossNode.new 2 2 0 [] [1 / 2, 1 / 2] 0 : CCELossNode α) with target_ := [1, 0] }

/-- A loss node of width two that has seen three correct and one incorrect
prediction with a total loss of `2`. -/
def scoredLoss : CCELossNode α :=
  { (CCELossNode.new 2 1 0 [] [] 0 : CCELossNode α) with
    correct_ := 3, incorrect_ := 1, cummulative_loss_ := 2 }

/-- The layer `sampleReLU` with accumulated gradients `[2, 0, 0, 0]` for the
weights and `[0, 4]` for the biases. -/
def gradedReLU : FFNode α :=
  { (sampleReLU : FFNode α) with weight_gradients_ := [2, 0, 0, 0], bias_gradients_ := [0, 4] }

/-- A freshly constructed Softmax layer with three inputs and two outputs: all
weights and biases are zero. -/
def zeroOutput : FFNode α := FFNode.new Activation.Softmax 2 3 []

/-- The layer `sampleSoftmax` with accumulated gradients `[2, 0, 0, 0]` for the
weights and `[0, 4]` for the biases. -/
def gradedSoftmax : FFNode α :=
  { (sampleSoftmax : FFNode α) with weight_gradients_ := [2, 0, 0, 0], bias_gradients_ := [0, 4] }

/-- A Softmax layer with two inputs and two outputs, zero weights and no bias,
in the state `forward` leaves: both logits are `0`, both outputs `1/2`. -/
def halfSoftmax : FFNode α :=
  { (FFNode.new Activation.Softmax 2 2 [] : FFNode α) with activations_ := [1 / 2, 1 / 2] }

/-- A Softmax layer with two inputs and two outputs, zero weights and biases
`[0, -200]`, whose outputs are `[1, 0]`: the state `forward` leaves in single
precision, where `exp(-200)` underflows to `0`. -/
def underflowSoftmax : FFNode α :=
  { (FFNode.new Activation.Softmax 2 2 [] : FFNode α) with
    biases_ := [0, -200], activations_ := [1, 0] }

/-- A freshly constructed ReLU layer with `65535` inputs and `32768` outputs:
`32768 * 65535` weights and `32768` biases, `2^31` parameters in all. -/
def wideLayer : FFNode α := FFNode.new Activation.ReLU 32768 65535 []

/-- A loss node of width two, batch size one, bound to the target `[1, 0]`,
whose last input is `[1/2, 0]`. -/
def partialInputLoss : CCELossNode α :=
  { (CCELossNode.new 2 1 0 [] [1 / 2, 0] 0 : CCELossNode α) with target_ := [1, 0] }

theorem forLoop_succ {σ : Type} (n : Nat) (body : Nat → σ → σ) (s : σ) :
    forLoop (n + 1) body s = body n (forLoop n body s) := rfl

theorem forLoop_congr {σ : Type} (n : Nat) (f g : Nat → σ → σ) (s : σ)
    (h : ∀ i, i < n → ∀ t, f i t = g i t) : forLoop n f s = forLoop n g s := by
  induction n with
  | zero => rfl
  | succ k ih =>
    rw [forLoop_succ, forLoop_succ, ih (fun i hi t => h i (Nat.lt_succ_of_lt hi) t),
      h k (Nat.lt_succ_self k)]

theorem forLoop_add (f : Nat → α) (a : α) (n : Nat) :
    forLoop n (fun i s => s + f i) a = a + ∑ i in Finset.range n, f i := by
  induction n with
  | zero => simp [forLoop]
  | succ k ih => rw [forLoop_succ, ih, Finset.sum_range_succ, add_assoc]

theorem forLoop_sub (f : Nat → α) (a : α) (n : Nat) :
    forLoop n (fun i s => s - f i) a = a - ∑ i in Finset.range n, f i := by
  induction n with
  | zero => simp [forLoop]
  | succ k ih => rw [forLoop_succ, ih, Finset.sum_range_succ]; ring

theorem rd_set_self (l : List α) (i : Nat) (v : α) (h : i < l.length) :
    rd (l.set i v) i = v := by
  simp [rd, List.getD_eq_getElem?_getD, List.getElem?_set, h]

theorem rd_set_of_ne (l : List α) (i j : Nat) (v : α) (h : i ≠ j) :
    rd (l.set i v) j = rd l j := by
  simp [rd, List.getD_eq_getElem?_getD, List.getElem?_set, h]

theorem rd_of_le (l : List α) (i : Nat) (h : l.length ≤ i) : rd l i = 0 := by
  simp [rd, List.getD_eq_getElem?_getD, List.getElem?_eq_none h]

theorem rd_set (l : List α) (i j : Nat) (v : α) :
    rd (l.set i v) j = if i = j ∧ j < l.length then v else rd l j := by
  by_cases hij : i = j
  · subst hij
    by_cases hl : i < l.length
    · simp [rd_set_self l i v hl, hl]
    · have h1 : l.length ≤ i := Nat.le_of_not_lt hl
      simp [hl, rd_of_le l i h1, rd_of_le (l.set i v) i (by simpa using h1)]
  · simp [rd_set_of_ne l i j v hij, hij]

/-- A loop that rewrites element `k` of a buffer in iteration `k` keeps its size. -/
theorem length_forLoop_set (f : Nat → List α → α) (l : List α) (n : Nat) :
    (forLoop n (fun k a => a.set k (f k a)) l).length = l.length := by
  induction n with
  | zero => rfl
  | succ k ih => rw [forLoop_succ, List.length_set, ih]

/-- A loop that stores `f k` into element `k` in iteration `k`. -/
theorem rd_forLoop_set_const (f : Nat → α) (l : List α) (n i : Nat) :
    rd (forLoop n (fun k a => a.set k (f k)) l) i
      = if i < n ∧ i < l.length then f i else rd l i := by
  induction n with
  | zero => simp [forLoop]
  | succ k ih =>
    rw [forLoop_succ, rd_set, length_forLoop_set (fun k _ => f k), ih]
    by_cases hki : k = i
    · subst hki
      by_cases hl : k < l.length <;> simp [hl]
    · have h1 : i < k + 1 ↔ i < k := by omega
      simp [hki, h1]

/-- A loop that replaces element `k` by `f k` of its old value in iteration `k`. -/
theorem rd_forLoop_set_update (f : Nat → α → α) (l : List α) (n i : Nat) :
    rd (forLoop n (fun k a => a.set k (f k (rd a k))) l) i
      = if i < n ∧ i < l.length then f i (rd l i) else rd l i := by
  induction n generalizing i with
  | zero => simp [forLoop]
  | succ k ih =>
    rw [forLoop_succ, rd_set, length_forLoop_set (fun k a => f k (rd a k)), ih i, ih k]
    by_cases hki : k = i
    · subst hki
      by_cases hl : k < l.length <;> simp [hl]
    · have h1 : i < k + 1 ↔ i < k := by omega
      simp [hki, h1]

/-! ## The dense layer: forward pass -/

theorem FFNode.z_eq (n : FFNode α) (inputs : List α) (i : Nat) :
    n.z inputs i
      = ∑ j in Finset.range n.input_size_, rd n.weights_ (i * n.input_size_ + j) * rd inputs j
        + rd n.biases_ i := by
  simp only [FFNode.z]
  rw [forLoop_add, zero_add]

theorem FFNode.forward_activations_relu (exp : α → α) (n : FFNode α) (inputs : List α)
    (hact : n.activation_ = Activation.ReLU) (i : Nat) :
    rd (n.forward exp inputs).activations_ i
      = if i < n.output_size_ ∧ i < n.activations_.length then max (n.z inputs i) 0
        else rd n.activations_ i := by
  simp only [FFNode.forward, hact]
  simp only [reduceCtorEq, if_false]
  exact rd_forLoop_set_const (fun k => max (n.z inputs k) 0) n.activations_ n.output_size_ i

theorem FFNode.forward_activations_softmax (exp : α → α) (n : FFNode α) (inputs : List α)
    (hact : n.activation_ = Activation.Softmax) (hlen : n.activations_.length = n.output_size_)
    (i : Nat) (hi : i < n.output_size_) :
    rd (n.forward exp inputs).activations_ i
      = exp (n.z inputs i) / ∑ k in Finset.range n.output_size_, exp (n.z inputs k) := by
  simp only [FFNode.forward, hact]
  simp only [if_true]
  rw [rd_forLoop_set_update (fun _ v => v * _), length_forLoop_set (fun k _ => exp (n.z inputs k)),
    rd_forLoop_set_const, forLoop_add, zero_add]
  have hsum : ∑ k in Finset.range n.output_size_,
        rd (forLoop n.output_size_ (fun k a => a.set k (exp (n.z inputs k))) n.activations_) k
      = ∑ k in Finset.range n.output_size_, exp (n.z inputs k) := by
    refine Finset.sum_congr rfl (fun k hk => ?_)
    have hk1 : k < n.output_size_ := Finset.mem_range.mp hk
    rw [rd_forLoop_set_const]
    simp [hk1, hlen]
  rw [hsum]
  simp [hi, hlen, div_eq_mul_inv]

theorem FFNode.forward_wf (exp : α → α) (n : FFNode α) (inputs : List α) (h : n.wf) :
    (n.forward exp inputs).wf := by
  have hlen : (n.forward exp inputs).activations_.length = n.output_size_ := by
    simp only [FFNode.forward]
    split
    · rw [length_forLoop_set (fun k a => rd a k * _)]
      cases n.activation_
      · simp only []
        rw [length_forLoop_set (fun k _ => max (n.z inputs k) 0)]; exact h.activations_size
      · simp only []
        rw [length_forLoop_set (fun k _ => exp (n.z inputs k))]; exact h.activations_size
    · cases n.activation_
      · simp only []
        rw [length_forLoop_set (fun k _ => max (n.z inputs k) 0)]; exact h.activations_size
      · simp only []
        rw [length_forLoop_set (fun k _ => exp (n.z inputs k))]; exact h.activations_size
  exact ⟨h.weights_size, h.biases_size, hlen, h.weight_gradients_size, h.bias_gradients_size,
    h.activation_gradients_size, h.input_gradients_size⟩

/-- C4. `FFNode::forward` computes for every output unit `i` the pre-activation
`z_i = Σ_j weights_[i*input_size+j] * inputs[j] + biases_[i]` and stores
`max(z_i, 0)` in `activations_[i]` for a ReLU layer and `exp(z_i) / Σ_k exp(z_k)`
for a Softmax layer. -/
theorem FFNode.forward_spec (n : FFNode ℝ) (inputs : List ℝ) (hwf : n.wf)
    (i : Nat) (hi : i < n.output_size_) :
    n.z inputs i
        = ∑ j in Finset.range n.input_size_,
            rd n.weights_ (i * n.input_size_ + j) * rd inputs j + rd n.biases_ i
    ∧ (n.activation_ = Activation.ReLU →
        rd (n.forward Real.exp inputs).activations_ i
          = max (∑ j in Finset.range n.input_size_,
              rd n.weights_ (i * n.input_size_ + j) * rd inputs j + rd n.biases_ i) 0)
    ∧ (n.activation_ = Activation.Softmax →
        rd (n.forward Real.exp inputs).activations_ i
          = Real.exp (∑ j in Finset.range n.input_size_,
              rd n.weights_ (i * n.input_size_ + j) * rd inputs j + rd n.biases_ i)
            / ∑ k in Finset.range n.output_size_,
                Real.exp (∑ j in Finset.range n.input_size_,
                  rd n.weights_ (k * n.input_size_ + j) * rd inputs j + rd n.biases_ k)) := by
  refine ⟨n.z_eq inputs i, fun hact => ?_, fun hact => ?_⟩
  · rw [FFNode.forward_activations_relu Real.exp n inputs hact i, ← n.z_eq inputs i]
    simp [hi, hwf.activations_size]
  · rw [FFNode.forward_activations_softmax Real.exp n inputs hact hwf.activations_size i hi,
      n.z_eq inputs i]
    congr 1
    exact Finset.sum_congr rfl (fun k _ => by rw [n.z_eq inputs k])

/-- C3. The activations a Softmax layer with at least one output produces in
`forward` sum to `1`. -/
theorem FFNode.softmax_sum_eq_one (n : FFNode ℝ) (inputs : List ℝ) (hwf : n.wf)
    (hact : n.activation_ = Activation.Softmax) (hsize : 1 ≤ n.output_size_) :
    ∑ i in Finset.range n.output_size_, rd (n.forward Real.exp inputs).activations_ i = 1 := by
  have hterm : ∀ i ∈ Finset.range n.output_size_,
      rd (n.forward Real.exp inputs).activations_ i
        = Real.exp (n.z inputs i)
          / ∑ k in Finset.range n.output_size_, Real.exp (n.z inputs k) := fun i hi =>
    FFNode.forward_activations_softmax Real.exp n inputs hact hwf.activations_size i
      (Finset.mem_range.mp hi)
  rw [Finset.sum_congr rfl hterm, ← Finset.sum_div]
  have hpos : 0 < ∑ k in Finset.range n.output_size_, Real.exp (n.z inputs k) :=
    Finset.sum_pos (fun k _ => Real.exp_pos _) (Finset.nonempty_range_iff.mpr (by omega))
  exact div_self (ne_of_gt hpos)

/-! ## Parameter addressing and the optimizer -/

theorem FFNode.param_injective (n : FFNode α) (i j : Nat) (h : n.param i = n.param j) :
    i = j := by
  unfold FFNode.param at h
  split at h <;> split at h <;> simp at h <;> omega

theorem FFNode.gradient_injective (n : FFNode α) (i j : Nat) (h : n.gradient i = n.gradient j) :
    i = j := by
  unfold FFNode.gradient at h
  split at h <;> split at h <;> simp at h <;> omega

theorem FFNode.param_inBounds (n : FFNode α) (h : n.wf) (i : Nat) (hi : i < n.param_count) :
    (n.param i).inBounds n := by
  have hw := h.weights_size
  have hb := h.biases_size
  unfold FFNode.param_count at hi
  unfold FFNode.param
  split
  · assumption
  · simp only [FFRef.inBounds]
    have : (n.input_size_ + 1) * n.output_size_ = n.output_size_ * n.input_size_ + n.output_size_ := by
      ring
    omega

theorem FFNode.gradient_inBounds (n : FFNode α) (h : n.wf) (i : Nat) (hi : i < n.param_count) :
    (n.gradient i).inBounds n := by
  have hw := h.weights_size
  have hb := h.bias_gradients_size
  have hg := h.weight_gradients_size
  unfold FFNode.param_count at hi
  unfold FFNode.gradient
  split
  · simp only [FFRef.inBounds]; omega
  · simp only [FFRef.inBounds]
    have : (n.input_size_ + 1) * n.output_size_ = n.output_size_ * n.input_size_ + n.output_size_ := by
      ring
    omega

theorem CCELossNode.forwardScan_loss (log : α → α) (n : CCELossNode α) (data : List α)
    (k : Nat) (s : CCEScan α) :
    (forLoop k (n.forwardStep log data) s).loss_
      = s.loss_ - ∑ i in Finset.range k, rd n.target_ i * log (max (rd data i) float_epsilon) := by
  induction k with
  | zero => simp [forLoop]
  | succ k ih =>
    rw [forLoop_succ, Finset.sum_range_succ, ← sub_sub, ← ih]
    simp only [CCELossNode.forwardStep]
    split <;> split <;> rfl

theorem CCELossNode.forward_loss (log : α → α) (uninit : Nat) (n : CCELossNode α)
    (data : List α) :
    (n.forward log uninit data).loss_
      = -∑ i in Finset.range n.input_size_,
          rd n.target_ i * log (max (rd data i) float_epsilon) := by
  simp only [CCELossNode.forward, CCELossNode.forwardScan]
  split <;> simp [CCELossNode.forwardScan_loss]

theorem CCELossNode.forward_cummulative_loss (log : α → α) (uninit : Nat) (n : CCELossNode α)
    (data : List α) :
    (n.forward log uninit data).cummulative_loss_
      = n.cummulative_loss_ + (n.forward log uninit data).loss_ := by
  simp only [CCELossNode.forward]
  split <;> rfl

/-- With a one-hot target only the term of the hot index contributes to the loss. -/
theorem CCELossNode.forward_loss_one_hot (log : α → α) (uninit : Nat) (n : CCELossNode α)
    (data : List α) (k : Nat) (hk : k < n.input_size_) (hhot : rd n.target_ k = 1)
    (hcold : ∀ i, i < n.input_size_ → i ≠ k → rd n.target_ i = 0) :
    (n.forward log uninit data).loss_ = -log (max (rd data k) float_epsilon) := by
  rw [CCELossNode.forward_loss, Finset.sum_eq_single k]
  · rw [hhot, one_mul]
  · intro i hi hik
    rw [hcold i (Finset.mem_range.mp hi) hik, zero_mul]
  · intro h
    exact absurd (Finset.mem_range.mpr hk) h

theorem float_epsilon_le_one : (float_epsilon : α) ≤ 1 := by
  unfold float_epsilon
  rw [div_le_one (by positivity)]
  exact one_le_pow₀ (by norm_num)

/-- C8 (as amended). `CCELossNode::forward` computes
`loss_ = - Σ_i target_[i] * log(max(data[i], eps))` where the clamp threshold
`eps` is `numeric_limits<float>::epsilon()`, the single-precision machine
epsilon `2⁻²³`. -/
theorem CCELossNode.forward_loss_clamped (uninit : Nat) (n : CCELossNode ℝ) (data : List ℝ) :
    (n.forward Real.log uninit data).loss_
      = -∑ i in Finset.range n.input_size_,
          rd n.target_ i * Real.log (max (rd data i) (1 / 2 ^ 23)) :=
  CCELossNode.forward_loss Real.log uninit n data

/-- C8 (as stated) fails: on the prediction `[2⁻³⁰]` with target `[1]` the loss
computed by `CCELossNode::forward` is `-log(2⁻²³)`, which is the value of the
formula neither with the smallest positive single-precision value `2⁻¹⁴⁹` nor
with the smallest positive normal value `2⁻¹²⁶` as threshold. -/
theorem CCELossNode.forward_loss_clamp_counterexample :
    ((unitLoss : CCELossNode ℝ).forward Real.log 0 [1 / 2 ^ 30]).loss_
        = -Real.log (1 / 2 ^ 23)
    ∧ ((unitLoss : CCELossNode ℝ).forward Real.log 0 [1 / 2 ^ 30]).loss_
        ≠ -∑ i in Finset.range (unitLoss : CCELossNode ℝ).input_size_,
            rd (unitLoss : CCELossNode ℝ).target_ i
              * Real.log (max (rd [1 / 2 ^ 30] i) float_denorm_min)
    ∧ ((unitLoss : CCELossNode ℝ).forward Real.log 0 [1 / 2 ^ 30]).loss_
        ≠ -∑ i in Finset.range (unitLoss : CCELossNode ℝ).input_size_,
            rd (unitLoss : CCELossNode ℝ).target_ i
              * Real.log (max (rd [1 / 2 ^ 30] i) float_min) := by
  have hloss : ((unitLoss : CCELossNode ℝ).forward Real.log 0 [1 / 2 ^ 30]).loss_
      = -Real.log (1 / 2 ^ 23) := by
    rw [CCELossNode.forward_loss]
    have hmax : max ((1 : ℝ) / 2 ^ 30) (1 / 2 ^ 23) = 1 / 2 ^ 23 := by
      apply max_eq_right; norm_num
    simp only [unitLoss, CCELossNode.new, CCELossNode.set_target, Finset.sum_range_one, rd,
      List.getD_cons_zero, one_mul, float_epsilon, hmax]
  have hne : Real.log ((1 : ℝ) / 2 ^ 23) ≠ Real.log (1 / 2 ^ 30) := by
    intro h
    have := Real.log_injOn_pos (by norm_num : (0 : ℝ) < 1 / 2 ^ 23)
      (by norm_num : (0 : ℝ) < 1 / 2 ^ 30) h
    norm_num at this
  have hden : max ((1 : ℝ) / 2 ^ 30) float_denorm_min = 1 / 2 ^ 30 := by
    apply max_eq_left; unfold float_denorm_min; norm_num
  have hmin : max ((1 : ℝ) / 2 ^ 30) float_min = 1 / 2 ^ 30 := by
    apply max_eq_left; unfold float_min; norm_num
  refine ⟨hloss, ?_, ?_⟩
  · rw [hloss]
    simp only [unitLoss, CCELossNode.new, CCELossNode.set_target, Finset.sum_range_one, rd,
      List.getD_cons_zero, one_mul, hden]
    exact fun h => hne (neg_injective h)
  · rw [hloss]
    simp only [unitLoss, CCELossNode.new, CCELossNode.set_target, Finset.sum_range_one, rd,
      List.getD_cons_zero, one_mul, hmin]
    exact fun h => hne (neg_injective h)

/-- C9. For a one-hot target with hot index `k` and a prediction vector with
`data[k] = 1`, the `loss_` computed by `CCELossNode::forward` is `0` and
`cummulative_loss_` is unchanged by the call. -/
theorem CCELossNode.forward_loss_eq_zero (uninit : Nat) (n : CCELossNode ℝ) (data : List ℝ)
    (k : Nat) (hk : k < n.input_size_) (hhot : rd n.target_ k = 1)
    (hcold : ∀ i, i < n.input_size_ → i ≠ k → rd n.target_ i = 0)
    (hdata : rd data k = 1) :
    (n.forward Real.log uninit data).loss_ = 0
    ∧ (n.forward Real.log uninit data).cummulative_loss_ = n.cummulative_loss_ := by
  have hloss : (n.forward Real.log uninit data).loss_ = 0 := by
    rw [CCELossNode.forward_loss_one_hot Real.log uninit n data k hk hhot hcold, hdata,
      max_eq_left float_epsilon_le_one, Real.log_one, neg_zero]
  exact ⟨hloss, by rw [CCELossNode.forward_cummulative_loss, hloss, add_zero]⟩

/-- C10. Monotonicity of the cross-entropy loss: for a one-hot target with hot
index `k` and two prediction vectors `p`, `p'` with `0 < p'[k] < p[k]` (in
particular when also `p[k] ≤ 1`), the loss computed by `CCELossNode::forward`
on `p'` is never smaller than the loss on `p`, and it is strictly greater when
the clamp is not engaged on `p'`, that is when `p'[k]` is at least the clamp
threshold `float_epsilon`. -/
theorem CCELossNode.forward_loss_antitone (uninit uninit' : Nat) (n : CCELossNode ℝ)
    (p p' : List ℝ) (k : Nat) (hk : k < n.input_size_) (hhot : rd n.target_ k = 1)
    (hcold : ∀ i, i < n.input_size_ → i ≠ k → rd n.target_ i = 0)
    (hpos : 0 < rd p' k) (hlt : rd p' k < rd p k) :
    (n.forward Real.log uninit p).loss_ ≤ (n.forward Real.log uninit' p').loss_
    ∧ (float_epsilon ≤ rd p' k →
        (n.forward Real.log uninit p).loss_ < (n.forward Real.log uninit' p').loss_) := by
  rw [CCELossNode.forward_loss_one_hot Real.log uninit n p k hk hhot hcold,
    CCELossNode.forward_loss_one_hot Real.log uninit' n p' k hk hhot hcold]
  have hpos' : (0 : ℝ) < max (rd p' k) float_epsilon := lt_max_of_lt_left hpos
  refine ⟨?_, fun hclamp => ?_⟩
  · exact neg_le_neg (Real.log_le_log hpos' (max_le_max (le_of_lt hlt) (le_refl _)))
  · rw [max_eq_left hclamp, max_eq_left (le_trans hclamp (le_of_lt hlt))]
    exact neg_lt_neg (Real.log_lt_log hpos hlt)

/-! ## Evaluation on sample layers -/

theorem sampleReLU_wf : (sampleReLU : FFNode α).wf := by
  constructor <;> simp [sampleReLU, FFNode.new]

theorem sampleSoftmax_wf : (sampleSoftmax : FFNode α).wf := by
  constructor <;> simp [sampleSoftmax, FFNode.new]

theorem sampleReLU_forward (exp : α → α) :
    ((sampleReLU : FFNode α).forward exp [1, 1]).activations_ = [4, 0] := by
  simp [sampleReLU, FFNode.new, FFNode.forward, FFNode.z, forLoop, rd]
  norm_num

theorem unitReLU_forward (exp : α → α) (b : α) :
    ((unitReLU b).forward exp [1]).activations_ = [max (1 + b) 0] := by
  simp [unitReLU, FFNode.new, FFNode.forward, FFNode.z, forLoop, rd]

/-- C1 fails on the code for ReLU layers.  Layer with one input and one output,
`W = [1]`, `b = [0]`, input `x = [1]`, upstream gradient `g = [1]`: the
pre-activation is `z_0 = 1`, not `0`; the derivative of `g_0 * a_0(W, b, x)`
with respect to `b_0` is `1`; but after `forward(x)` and one `reverse(g)` from
zeroed gradient buffers `bias_gradients_[0]`, `weight_gradients_[0]` and
`input_gradients_[0]` are all `0`. -/
theorem FFNode.relu_gradient_check_fails :
    (unitReLU (0 : ℝ)).z [1] 0 = 1
    ∧ HasDerivAt
        (fun b : ℝ => 1 * rd ((unitReLU b).forward Real.exp [1]).activations_ 0) 1 0
    ∧ rd (((unitReLU (0 : ℝ)).forward Real.exp [1]).reverse [1]).bias_gradients_ 0 = 0
    ∧ rd (((unitReLU (0 : ℝ)).forward Real.exp [1]).reverse [1]).weight_gradients_ 0 = 0
    ∧ rd (((unitReLU (0 : ℝ)).forward Real.exp [1]).reverse [1]).input_gradients_ 0 = 0 := by
  refine ⟨by simp [unitReLU, FFNode.new, FFNode.z, forLoop, rd], ?_, ?_, ?_, ?_⟩
  · have hlin : HasDerivAt (fun b : ℝ => 1 + b) 1 0 := by
      simpa using (hasDerivAt_id (0 : ℝ)).const_add 1
    refine hlin.congr_of_eventuallyEq ?_
    have hnhds : ∀ᶠ b : ℝ in nhds 0, -1 < b := lt_mem_nhds (by norm_num)
    filter_upwards [hnhds] with b hb
    rw [unitReLU_forward]
    have : (0 : ℝ) ≤ 1 + b := by linarith
    simp [rd, max_eq_left this]
  · simp only [FFNode.reverse]
    rw [unitReLU_forward]
    simp [unitReLU, FFNode.new, FFNode.forward, forLoop, rd]
  · simp only [FFNode.reverse]
    rw [unitReLU_forward]
    simp [unitReLU, FFNode.new, FFNode.forward, forLoop, rd]
  · simp only [FFNode.reverse]
    rw [unitReLU_forward]
    simp [unitReLU, FFNode.new, FFNode.forward, forLoop, rd]

/-- C2 fails on the code.  ReLU layer `W = [[1, 2], [3, -4]]`, `b = [1, 1]`,
input `[1, 1]`: the forward output is `[4, 0]`; `reverse` on the upstream
gradient `[5, 7]` stores `activation_gradients_ = [0, 7]`, that is `0` where the
forward output is strictly positive and `gradients[i]` where it is not, the
opposite of `[5, 0]`. -/
theorem FFNode.reverse_relu_branches_swapped :
    ((sampleReLU : FFNode ℚ).forward id [1, 1]).activations_ = [4, 0]
    ∧ (((sampleReLU : FFNode ℚ).forward id [1, 1]).reverse [5, 7]).activation_gradients_
        = [0, 7] := by
  refine ⟨sampleReLU_forward id, ?_⟩
  simp only [FFNode.reverse]
  rw [sampleReLU_forward]
  simp [sampleReLU, FFNode.new, FFNode.forward, FFNode.z, forLoop, rd]

/-- Witness of C3 on the layer `sampleSoftmax` and the input `[1, 1]`. -/
theorem FFNode.softmax_sum_eq_one_witness :
    (sampleSoftmax : FFNode ℝ).wf
    ∧ (sampleSoftmax : FFNode ℝ).activation_ = Activation.Softmax
    ∧ 1 ≤ (sampleSoftmax : FFNode ℝ).output_size_
    ∧ ∑ i in Finset.range (sampleSoftmax : FFNode ℝ).output_size_,
        rd ((sampleSoftmax : FFNode ℝ).forward Real.exp [1, 1]).activations_ i = 1 :=
  ⟨sampleSoftmax_wf, rfl, by decide,
    FFNode.softmax_sum_eq_one sampleSoftmax [1, 1] sampleSoftmax_wf rfl (by decide)⟩

/-- Witness of C4 on the layer `sampleReLU`, the input `[1, 1]` and output
unit `0`: `z_0 = 1*1 + 2*1 + 1 = 4` and `activations_[0] = max(4, 0) = 4`. -/
theorem FFNode.forward_spec_witness :
    (sampleReLU : FFNode ℝ).wf
    ∧ 0 < (sampleReLU : FFNode ℝ).output_size_
    ∧ (sampleReLU : FFNode ℝ).z [1, 1] 0 = 4
    ∧ rd ((sampleReLU : FFNode ℝ).forward Real.exp [1, 1]).activations_ 0 = 4 := by
  have h := FFNode.forward_spec (sampleReLU : FFNode ℝ) [1, 1] sampleReLU_wf 0 (by decide)
  refine ⟨sampleReLU_wf, by decide, ?_, ?_⟩
  · rw [h.1]
    simp [sampleReLU, FFNode.new, Finset.sum_range_succ, rd]
    norm_num
  · rw [h.2.1 rfl]
    simp [sampleReLU, FFNode.new, Finset.sum_range_succ, rd]
    norm_num

/-- Witness of C9 on `unitLoss` and the prediction `[1]`. -/
theorem CCELossNode.forward_loss_eq_zero_witness :
    ((unitLoss : CCELossNode ℝ).forward Real.log 0 [1]).loss_ = 0
    ∧ ((unitLoss : CCELossNode ℝ).forward Real.log 0 [1]).cummulative_loss_
        = (unitLoss : CCELossNode ℝ).cummulative_loss_ :=
  CCELossNode.forward_loss_eq_zero 0 unitLoss [1] 0 (by decide)
    (by simp [unitLoss, CCELossNode.new, CCELossNode.set_target, rd])
    (fun i hi hne => absurd (Nat.lt_one_iff.mp hi) hne)
    (by simp [rd])

/-- Witness of C10 on `unitLoss` and the predictions `[1/2]` and `[1/4]`. -/
theorem CCELossNode.forward_loss_antitone_witness :
    ((unitLoss : CCELossNode ℝ).forward Real.log 0 [1 / 2]).loss_
      < ((unitLoss : CCELossNode ℝ).forward Real.log 0 [1 / 4]).loss_ :=
  (CCELossNode.forward_loss_antitone 0 0 unitLoss [1 / 2] [1 / 4] 0 (by decide)
    (by simp [unitLoss, CCELossNode.new, CCELossNode.set_target, rd])
    (fun i hi hne => absurd (Nat.lt_one_iff.mp hi) hne)
    (by simp [rd]) (by simp [rd]; norm_num)).2
    (by simp [rd, float_epsilon]; norm_num)

/-! ## The loss node: reverse pass and score -/

theorem fdiv_eq_some (a b : α) (h : b ≠ 0) : fdiv a b = some (a / b) := by
  simp [fdiv, h]

theorem fdiv_eq_none_iff (a b : α) : fdiv a b = none ↔ b = 0 := by
  unfold fdiv
  split <;> simp [*]

/-- The loop of `CCELossNode::reverse` while no divisor is zero. -/
theorem CCELossNode.reverse_loop (n : CCELossNode α) (k : Nat)
    (h : ∀ i, i < k → rd n.last_input_ i ≠ 0) :
    forLoop k (fun i (g : Option (List α)) =>
      g.bind (fun g =>
        (fdiv (-n.inv_batch_size_ * rd n.target_ i) (rd n.last_input_ i)).map
          (fun q => g.set i q))) (some n.gradients_)
      = some (forLoop k (fun i g =>
          g.set i (-n.inv_batch_size_ * rd n.target_ i / rd n.last_input_ i)) n.gradients_) := by
  induction k with
  | zero => rfl
  | succ k ih =>
    rw [forLoop_succ, ih (fun i hi => h i (Nat.lt_succ_of_lt hi)), forLoop_succ,
      Option.some_bind, fdiv_eq_some _ _ (h k (Nat.lt_succ_self k))]
    rfl

/-- The loop of `CCELossNode::reverse` once a divisor is zero. -/
theorem CCELossNode.reverse_loop_none (n : CCELossNode α) (k j : Nat) (hj : j < k)
    (h : rd n.last_input_ j = 0) :
    forLoop k (fun i (g : Option (List α)) =>
      g.bind (fun g =>
        (fdiv (-n.inv_batch_size_ * rd n.target_ i) (rd n.last_input_ i)).map
          (fun q => g.set i q))) (some n.gradients_) = none := by
  induction k with
  | zero => omega
  | succ k ih =>
    rw [forLoop_succ]
    rcases Nat.lt_succ_iff_lt_or_eq.mp hj with hlt | heq
    · rw [ih hlt]; rfl
    · subst heq
      cases forLoop j (fun i (g : Option (List α)) =>
        g.bind (fun g =>
          (fdiv (-n.inv_batch_size_ * rd n.target_ i) (rd n.last_input_ i)).map
            (fun q => g.set i q))) (some n.gradients_) with
      | none => rfl
      | some g => simp [fdiv, h]

theorem CCELossNode.reverse_eq_some (n : CCELossNode α) (data : List α)
    (h : ∀ i, i < n.input_size_ → rd n.last_input_ i ≠ 0) :
    n.reverse data
      = some { n with gradients_ := forLoop n.input_size_ (fun i g =>
          g.set i (-n.inv_batch_size_ * rd n.target_ i / rd n.last_input_ i)) n.gradients_ } := by
  simp only [CCELossNode.reverse]
  rw [CCELossNode.reverse_loop n n.input_size_ h]
  rfl

theorem CCELossNode.reverse_eq_none (n : CCELossNode α) (data : List α) (j : Nat)
    (hj : j < n.input_size_) (h : rd n.last_input_ j = 0) : n.reverse data = none := by
  simp only [CCELossNode.reverse]
  rw [CCELossNode.reverse_loop_none n n.input_size_ j hj h]
  rfl

/-- C12. For every `CCELossNode` state with `correct_ + incorrect_ > 0`,
`accuracy()` is `correct_ / (correct_ + incorrect_)` and `avg_loss()` is
`cummulative_loss_ / (correct_ + incorrect_)`; each of the two results is
undefined (a division by zero) if and only if `correct_ + incorrect_ = 0`. -/
theorem CCELossNode.accuracy_avg_loss_spec (n : CCELossNode α) :
    (0 < n.correct_ + n.incorrect_ →
      n.accuracy = some ((n.correct_ : α) / ((n.correct_ : α) + (n.incorrect_ : α)))
      ∧ n.avg_loss = some (n.cummulative_loss_ / ((n.correct_ : α) + (n.incorrect_ : α))))
    ∧ (n.accuracy = none ↔ n.correct_ + n.incorrect_ = 0)
    ∧ (n.avg_loss = none ↔ n.correct_ + n.incorrect_ = 0) := by
  have hcast : ((n.correct_ + n.incorrect_ : Nat) : α) = 0 ↔ n.correct_ + n.incorrect_ = 0 :=
    Nat.cast_eq_zero
  refine ⟨fun hpos => ?_, ?_, ?_⟩
  · have hne : ((n.correct_ + n.incorrect_ : Nat) : α) ≠ 0 := fun h => by
      have := hcast.mp h
      omega
    rw [CCELossNode.accuracy, CCELossNode.avg_loss, fdiv_eq_some _ _ hne, fdiv_eq_some _ _ hne,
      Nat.cast_add]
    exact ⟨rfl, rfl⟩
  · rw [CCELossNode.accuracy, fdiv_eq_none_iff, hcast]
  · rw [CCELossNode.avg_loss, fdiv_eq_none_iff, hcast]

/-- C13. From every `CCELossNode` state `reset_score()` yields a state with
`cummulative_loss_ = 0`, `correct_ = 0` and `incorrect_ = 0` and leaves every
other member unchanged. -/
theorem CCELossNode.reset_score_spec (n : CCELossNode α) :
    n.reset_score.cummulative_loss_ = 0
    ∧ n.reset_score.correct_ = 0
    ∧ n.reset_score.incorrect_ = 0
    ∧ n.reset_score.target_ = n.target_
    ∧ n.reset_score.inv_batch_size_ = n.inv_batch_size_
    ∧ n.reset_score.gradients_ = n.gradients_
    ∧ n.reset_score.last_input_ = n.last_input_
    ∧ n.reset_score.input_size_ = n.input_size_
    ∧ n.reset_score.loss_ = n.loss_
    ∧ n.reset_score.active_ = n.active_ :=
  ⟨rfl, rfl, rfl, rfl, rfl, rfl, rfl, rfl, rfl, rfl⟩

/-! ## The graph -/

theorem Model.updateNode_getElem? (m : Model α) (p : Nat) (f : Node α → Node α) (q : Nat) :
    (m.updateNode p f).nodes_[q]?
      = (m.nodes_[q]?).map (fun node => if q = p then f node else node) := by
  unfold Model.updateNode
  cases hp : m.nodes_[p]? with
  | none =>
    simp only
    by_cases hq : q = p
    · subst hq; simp [hp]
    · simp [hq]
  | some node =>
    simp only [List.getElem?_set]
    by_cases hq : p = q
    · subst hq
      have hlt : p < m.nodes_.length := by
        by_contra hge
        rw [List.getElem?_eq_none (Nat.le_of_not_lt hge)] at hp
        cases hp
      simp [hp, hlt]
    · have hq' : ¬ q = p := fun h => hq h.symm
      simp [hq, hq']

/-- C14. `Model::create_edge(dst, src)` appends `src` at the end of the
antecedents of `dst` and `dst` at the end of the subsequents of `src`, and
changes nothing else in any node; there is no duplicate check: after two calls
with the same pair `src` has been appended twice to the antecedents of `dst`
and `dst` twice to the subsequents of `src`. -/
theorem Model.create_edge_spec (m : Model α) (dst src p : Nat) :
    (m.create_edge dst src).nodes_[p]?
        = (m.nodes_[p]?).map (fun node =>
            { node with
              antecedents_ := if p = dst then node.antecedents_ ++ [src] else node.antecedents_
              subsequents_ := if p = src then node.subsequents_ ++ [dst] else node.subsequents_ })
    ∧ ((m.create_edge dst src).create_edge dst src).nodes_[p]?
        = (m.nodes_[p]?).map (fun node =>
            { node with
              antecedents_ :=
                if p = dst then node.antecedents_ ++ [src, src] else node.antecedents_
              subsequents_ :=
                if p = src then node.subsequents_ ++ [dst, dst] else node.subsequents_ })
    ∧ (m.create_edge dst src).name_ = m.name_
    ∧ (m.create_edge dst src).nodes_.length = m.nodes_.length := by
  have once : ∀ (m : Model α), (m.create_edge dst src).nodes_[p]?
      = (m.nodes_[p]?).map (fun node =>
          { node with
            antecedents_ := if p = dst then node.antecedents_ ++ [src] else node.antecedents_
            subsequents_ := if p = src then node.subsequents_ ++ [dst] else node.subsequents_ }) := by
    intro m
    simp only [Model.create_edge, Model.updateNode_getElem?, Option.map_map]
    congr 1
    funext node
    by_cases h1 : p = dst
    · subst h1
      by_cases h2 : p = src
      · subst h2; simp
      · simp [h2]
    · by_cases h2 : p = src
      · subst h2; simp [h1]
      · simp [h1, h2]
  refine ⟨once m, ?_, ?_, ?_⟩
  · rw [once (m.create_edge dst src), once m, Option.map_map]
    congr 1
    funext node
    by_cases h1 : p = dst
    · subst h1
      by_cases h2 : p = src
      · subst h2; simp
      · simp [h2]
    · by_cases h2 : p = src
      · subst h2; simp [h1]
      · simp [h1, h2]
  · simp only [Model.create_edge, Model.updateNode]
    split <;> split <;> rfl
  · simp only [Model.create_edge, Model.updateNode]
    split <;> split <;> simp

/-- Witness of C12 on `scoredLoss`: accuracy `3/4`, average loss `2/4`. -/
theorem CCELossNode.accuracy_avg_loss_spec_witness :
    0 < (scoredLoss : CCELossNode ℚ).correct_ + (scoredLoss : CCELossNode ℚ).incorrect_
    ∧ (scoredLoss : CCELossNode ℚ).accuracy = some (3 / 4)
    ∧ (scoredLoss : CCELossNode ℚ).avg_loss = some (2 / 4) := by
  have h := (CCELossNode.accuracy_avg_loss_spec (scoredLoss : CCELossNode ℚ)).1 (by decide)
  refine ⟨by decide, ?_, ?_⟩
  · rw [h.1]; simp [scoredLoss, CCELossNode.new]; norm_num
  · rw [h.2]; simp [scoredLoss, CCELossNode.new]; norm_num

/-! ## The dense layer: reverse pass -/

/-- A loop that rewrites element `φ j` in iteration `j` keeps the size of the buffer. -/
theorem length_forLoop_scatter (φ : Nat → Nat) (f : Nat → List α → α) (l : List α) (m : Nat) :
    (forLoop m (fun j a => a.set (φ j) (f j a)) l).length = l.length := by
  induction m with
  | zero => rfl
  | succ k ih => rw [forLoop_succ, List.length_set, ih]

/-- A loop that replaces element `φ j` by `f j` of its old value in iteration
`j` leaves the elements outside the image of `φ` as they are. -/
theorem rd_forLoop_scatter_of_ne (φ : Nat → Nat) (f : Nat → α → α) (l : List α) (m idx : Nat)
    (h : ∀ j, j < m → φ j ≠ idx) :
    rd (forLoop m (fun j a => a.set (φ j) (f j (rd a (φ j)))) l) idx = rd l idx := by
  induction m with
  | zero => rfl
  | succ k ih =>
    rw [forLoop_succ, rd_set_of_ne _ _ _ _ (h k (Nat.lt_succ_self k)),
      ih (fun j hj => h j (Nat.lt_succ_of_lt hj))]

/-- A loop that replaces element `φ j` by `f j` of its old value in iteration
`j`, for `φ` injective on the indices of the loop, has applied `f j` once to
element `φ j`. -/
theorem rd_forLoop_scatter (φ : Nat → Nat) (f : Nat → α → α) (l : List α) (m : Nat)
    (hinj : ∀ a b, a < m → b < m → φ a = φ b → a = b) (j : Nat) (hj : j < m)
    (hlen : φ j < l.length) :
    rd (forLoop m (fun j a => a.set (φ j) (f j (rd a (φ j)))) l) (φ j) = f j (rd l (φ j)) := by
  induction m with
  | zero => omega
  | succ k ih =>
    rw [forLoop_succ]
    rcases Nat.lt_succ_iff_lt_or_eq.mp hj with hlt | heq
    · have hne : φ k ≠ φ j := fun h => by
        have := hinj k j (Nat.lt_succ_self k) hj h
        omega
      rw [rd_set_of_ne _ _ _ _ hne]
      exact ih (fun a b ha hb => hinj a b (Nat.lt_succ_of_lt ha) (Nat.lt_succ_of_lt hb)) hlt
    · subst heq
      rw [rd_set_self _ _ _ (by rw [length_forLoop_scatter φ (fun j a => f j (rd a (φ j)))]; exact hlen),
        rd_forLoop_scatter_of_ne φ f l j (φ j) (fun a ha h => by
          have := hinj a j (Nat.lt_succ_of_lt ha) (Nat.lt_succ_self j) h
          omega)]

/-- The bias-gradient loop of `reverse`. -/
theorem FFNode.reverse_bias_gradients (n : FFNode α) (gradients : List α) (i : Nat) :
    rd (n.reverse gradients).bias_gradients_ i
      = if i < n.output_size_ ∧ i < n.bias_gradients_.length then
          rd n.bias_gradients_ i + rd (n.reverse gradients).activation_gradients_ i
        else rd n.bias_gradients_ i := by
  simp only [FFNode.reverse]
  exact rd_forLoop_set_update (fun k v => v + rd _ k) n.bias_gradients_ n.output_size_ i

/-- The weight-gradient loops of `reverse` after the first `k` iterations of the
outer loop over the input indices. -/
theorem FFNode.weight_gradients_loop (input_size output_size : Nat) (x ag wg : List α)
    (hlen : wg.length = output_size * input_size) (k : Nat) (hk : k ≤ input_size) :
    (forLoop k (fun i wg =>
        forLoop output_size (fun j wg =>
          wg.set (j * input_size + i) (rd wg (j * input_size + i) + rd x i * rd ag j)) wg)
        wg).length = wg.length
    ∧ ∀ j i, j < output_size → i < input_size →
        rd (forLoop k (fun i wg =>
            forLoop output_size (fun j wg =>
              wg.set (j * input_size + i) (rd wg (j * input_size + i) + rd x i * rd ag j)) wg)
            wg) (j * input_size + i)
          = if i < k then rd wg (j * input_size + i) + rd x i * rd ag j
            else rd wg (j * input_size + i) := by
  induction k with
  | zero => exact ⟨rfl, fun j i _ _ => by simp [forLoop]⟩
  | succ k ih =>
    obtain ⟨hl, hv⟩ := ih (Nat.le_of_succ_le hk)
    have hklt : k < input_size := hk
    rw [forLoop_succ]
    generalize forLoop k (fun i wg =>
        forLoop output_size (fun j wg =>
          wg.set (j * input_size + i) (rd wg (j * input_size + i) + rd x i * rd ag j)) wg)
        wg = cur at hl hv
    refine ⟨?_, fun j i hj hi => ?_⟩
    · rw [length_forLoop_scatter (fun j => j * input_size + k)
        (fun j a => rd a (j * input_size + k) + rd x k * rd ag j), hl]
    · have hbound : ∀ j, j < output_size → j * input_size + k < cur.length := by
        intro j hj
        rw [hl, hlen]
        calc j * input_size + k < j * input_size + input_size := by omega
          _ = (j + 1) * input_size := by ring
          _ ≤ output_size * input_size := Nat.mul_le_mul_right _ hj
      by_cases hik : i = k
      · subst hik
        have hinj : ∀ a b, a < output_size → b < output_size →
            a * input_size + i = b * input_size + i → a = b := by
          intro a b _ _ h
          have h1 : a * input_size = b * input_size := by omega
          exact Nat.eq_of_mul_eq_mul_right (by omega) h1
        rw [rd_forLoop_scatter (fun j => j * input_size + i) (fun j v => v + rd x i * rd ag j) cur
          output_size hinj j hj (hbound j hj), hv j i hj hi]
        simp
      · have hne : ∀ j', j' < output_size → j' * input_size + k ≠ j * input_size + i := by
          intro j' _ h
          have h1 : (j' * input_size + k) % input_size = (j * input_size + i) % input_size := by
            rw [h]
          rw [Nat.mul_add_mod_of_lt hklt, Nat.mul_add_mod_of_lt hi] at h1
          exact hik h1.symm
        rw [rd_forLoop_scatter_of_ne (fun j => j * input_size + k)
          (fun j v => v + rd x k * rd ag j) cur output_size (j * input_size + i) hne, hv j i hj hi]
        have : i < k + 1 ↔ i < k := by omega
        simp [this]

/-- The input-gradient loops of `reverse` after the first `k` iterations of the
outer loop over the output indices. -/
theorem FFNode.input_gradients_loop (input_size : Nat) (w ag ig : List α) (k j : Nat) :
    rd (forLoop k (fun i ig =>
        let offset := i * input_size
        forLoop input_size (fun j ig =>
          ig.set j (rd ig j + rd w (offset + j) * rd ag i)) ig) ig) j
      = if j < input_size ∧ j < ig.length then
          rd ig j + ∑ i in Finset.range k, rd w (i * input_size + j) * rd ag i
        else rd ig j := by
  induction k generalizing j with
  | zero => simp [forLoop]
  | succ k ih =>
    rw [forLoop_succ]
    simp only
    rw [rd_forLoop_set_update (fun j v => v + rd w (k * input_size + j) * rd ag k), ih j]
    have hlen : (forLoop k (fun i ig =>
        let offset := i * input_size
        forLoop input_size (fun j ig =>
          ig.set j (rd ig j + rd w (offset + j) * rd ag i)) ig) ig).length = ig.length := by
      clear ih
      induction k with
      | zero => rfl
      | succ k ih2 =>
        rw [forLoop_succ]
        simp only
        rw [length_forLoop_set (fun j a => rd a j + rd w (k * input_size + j) * rd ag k), ih2]
    rw [hlen]
    by_cases h : j < input_size ∧ j < ig.length
    · simp only [h, and_self, if_true, Finset.sum_range_succ]
      ring
    · simp only [h, if_false]

theorem FFNode.reverse_weight_gradients (n : FFNode α) (gradients : List α) (hwf : n.wf)
    (i j : Nat) (hi : i < n.output_size_) (hj : j < n.input_size_) :
    rd (n.reverse gradients).weight_gradients_ (i * n.input_size_ + j)
      = rd n.weight_gradients_ (i * n.input_size_ + j)
        + rd n.last_input_ j * rd (n.reverse gradients).activation_gradients_ i := by
  simp only [FFNode.reverse]
  rw [(FFNode.weight_gradients_loop n.input_size_ n.output_size_ n.last_input_ _
    n.weight_gradients_ hwf.weight_gradients_size n.input_size_ (Nat.le_refl _)).2 i j hi hj]
  simp [hj]

theorem rd_map_zero (l : List α) (j : Nat) : rd (l.map (fun _ => (0 : α))) j = 0 := by
  simp only [rd, List.getD_eq_getElem?_getD, List.getElem?_map]
  cases l[j]? <;> rfl

theorem FFNode.reverse_input_gradients (n : FFNode α) (gradients : List α) (hwf : n.wf)
    (j : Nat) (hj : j < n.input_size_) :
    rd (n.reverse gradients).input_gradients_ j
      = ∑ i in Finset.range n.output_size_,
          rd n.weights_ (i * n.input_size_ + j)
            * rd (n.reverse gradients).activation_gradients_ i := by
  simp only [FFNode.reverse]
  rw [FFNode.input_gradients_loop, rd_map_zero, List.length_map, hwf.input_gradients_size]
  simp [hj]

/-- The members `reverse` does not write. -/
theorem FFNode.reverse_frame (n : FFNode α) (gradients : List α) :
    (n.reverse gradients).activation_ = n.activation_
    ∧ (n.reverse gradients).output_size_ = n.output_size_
    ∧ (n.reverse gradients).input_size_ = n.input_size_
    ∧ (n.reverse gradients).weights_ = n.weights_
    ∧ (n.reverse gradients).biases_ = n.biases_
    ∧ (n.reverse gradients).activations_ = n.activations_
    ∧ (n.reverse gradients).last_input_ = n.last_input_ :=
  ⟨rfl, rfl, rfl, rfl, rfl, rfl, rfl⟩

/-- The members `forward` does not write. -/
theorem FFNode.forward_frame (exp : α → α) (n : FFNode α) (inputs : List α) :
    (n.forward exp inputs).activation_ = n.activation_
    ∧ (n.forward exp inputs).output_size_ = n.output_size_
    ∧ (n.forward exp inputs).input_size_ = n.input_size_
    ∧ (n.forward exp inputs).weights_ = n.weights_
    ∧ (n.forward exp inputs).biases_ = n.biases_
    ∧ (n.forward exp inputs).weight_gradients_ = n.weight_gradients_
    ∧ (n.forward exp inputs).bias_gradients_ = n.bias_gradients_
    ∧ (n.forward exp inputs).activation_gradients_ = n.activation_gradients_
    ∧ (n.forward exp inputs).input_gradients_ = n.input_gradients_
    ∧ (n.forward exp inputs).last_input_ = inputs :=
  ⟨rfl, rfl, rfl, rfl, rfl, rfl, rfl, rfl, rfl, rfl⟩

/-- C16. For a ReLU layer whose biases are all strictly positive, `forward` on
the all-zero input vector yields `activations_[i] = biases_[i]` for every
output index `i`, whatever the weights. -/
theorem FFNode.forward_zero_input (exp : α → α) (n : FFNode α) (inputs : List α) (hwf : n.wf)
    (hact : n.activation_ = Activation.ReLU)
    (hbias : ∀ i, i < n.output_size_ → 0 < rd n.biases_ i)
    (hzero : ∀ j, j < n.input_size_ → rd inputs j = 0)
    (i : Nat) (hi : i < n.output_size_) :
    rd (n.forward exp inputs).activations_ i = rd n.biases_ i := by
  rw [FFNode.forward_activations_relu exp n inputs hact i, n.z_eq inputs i]
  have hsum : ∑ j in Finset.range n.input_size_,
      rd n.weights_ (i * n.input_size_ + j) * rd inputs j = 0 :=
    Finset.sum_eq_zero (fun j hj => by rw [hzero j (Finset.mem_range.mp hj), mul_zero])
  rw [hsum, zero_add]
  simp only [hi, hwf.activations_size, and_self, if_true]
  exact max_eq_left (le_of_lt (hbias i hi))

/-- C17. Parameter-gradient accumulation in `FFNode::reverse`: whatever the
gradient buffers hold before the call, afterwards `bias_gradients_[i]` is its
old value plus `activation_gradients_[i]` for every output `i`, and
`weight_gradients_[i*input_size+j]` is its old value plus
`last_input_[j] * activation_gradients_[i]` for every output `i` and input `j`:
every entry is added to once and not overwritten. -/
theorem FFNode.reverse_accumulates (n : FFNode α) (gradients : List α) (hwf : n.wf) :
    (∀ i, i < n.output_size_ →
      rd (n.reverse gradients).bias_gradients_ i
        = rd n.bias_gradients_ i + rd (n.reverse gradients).activation_gradients_ i)
    ∧ (∀ i j, i < n.output_size_ → j < n.input_size_ →
      rd (n.reverse gradients).weight_gradients_ (i * n.input_size_ + j)
        = rd n.weight_gradients_ (i * n.input_size_ + j)
          + rd n.last_input_ j * rd (n.reverse gradients).activation_gradients_ i) := by
  refine ⟨fun i hi => ?_, fun i j hi hj => n.reverse_weight_gradients gradients hwf i j hi hj⟩
  rw [n.reverse_bias_gradients gradients i]
  simp [hi, hwf.bias_gradients_size]

/-- C18. The input gradient of `FFNode::reverse` is overwritten, not
accumulated: after the call `input_gradients_[j]` is
`Σ_i weights_[i*input_size+j] * activation_gradients_[i]` for every input index
`j`, and the same for every other content of `input_gradients_` before the call. -/
theorem FFNode.reverse_input_gradients_overwritten (n : FFNode α) (gradients : List α)
    (hwf : n.wf) (j : Nat) (hj : j < n.input_size_) :
    rd (n.reverse gradients).input_gradients_ j
        = ∑ i in Finset.range n.output_size_,
            rd n.weights_ (i * n.input_size_ + j)
              * rd (n.reverse gradients).activation_gradients_ i
    ∧ ∀ before : List α, before.length = n.input_size_ →
        rd ({ n with input_gradients_ := before }.reverse gradients).input_gradients_ j
          = rd (n.reverse gradients).input_gradients_ j := by
  refine ⟨n.reverse_input_gradients gradients hwf j hj, fun before hlen => ?_⟩
  have hwf' : ({ n with input_gradients_ := before } : FFNode α).wf :=
    ⟨hwf.weights_size, hwf.biases_size, hwf.activations_size, hwf.weight_gradients_size,
      hwf.bias_gradients_size, hwf.activation_gradients_size, hlen⟩
  rw [n.reverse_input_gradients gradients hwf j hj,
    FFNode.reverse_input_gradients _ gradients hwf' j hj]
  rfl

/-! ## The loss node: prediction tally -/

theorem CCELossNode.forwardStep_max (log : α → α) (n : CCELossNode α) (data : List α)
    (i : Nat) (s : CCEScan α) :
    (n.forwardStep log data i s).max = if rd data i > s.max then rd data i else s.max := by
  simp only [CCELossNode.forwardStep]
  split <;> split <;> rfl

theorem CCELossNode.forwardStep_max_index (log : α → α) (n : CCELossNode α) (data : List α)
    (i : Nat) (s : CCEScan α) :
    (n.forwardStep log data i s).max_index
      = if rd data i > s.max then some i else s.max_index := by
  simp only [CCELossNode.forwardStep]
  split <;> split <;> rfl

theorem CCELossNode.forwardStep_active (log : α → α) (n : CCELossNode α) (data : List α)
    (i : Nat) (s : CCEScan α) :
    (n.forwardStep log data i s).active_ = if rd n.target_ i ≠ 0 then i else s.active_ := by
  simp only [CCELossNode.forwardStep]
  split <;> split <;> rfl

/-- The running maximum of `CCELossNode::forward` after `k` iterations: either
nothing was assigned and no entry so far is positive, or `max_index` is the
first index attaining the maximum of the entries so far, which is positive. -/
theorem CCELossNode.forwardScan_max (log : α → α) (n : CCELossNode α) (data : List α)
    (s : CCEScan α) (hmax : s.max = 0) (hidx : s.max_index = none) (k : Nat) :
    ((forLoop k (n.forwardStep log data) s).max_index = none
        ∧ (forLoop k (n.forwardStep log data) s).max = 0
        ∧ ∀ i, i < k → rd data i ≤ 0)
    ∨ ∃ m, m < k
        ∧ (forLoop k (n.forwardStep log data) s).max_index = some m
        ∧ (forLoop k (n.forwardStep log data) s).max = rd data m
        ∧ 0 < rd data m
        ∧ (∀ i, i < k → rd data i ≤ rd data m)
        ∧ ∀ i, i < m → rd data i < rd data m := by
  induction k with
  | zero => exact Or.inl ⟨hidx, hmax, fun i hi => by omega⟩
  | succ k ih =>
    rw [forLoop_succ, CCELossNode.forwardStep_max, CCELossNode.forwardStep_max_index]
    rcases ih with ⟨h1, h2, h3⟩ | ⟨m, hm, h1, h2, h3, h4, h5⟩
    · rw [h1, h2]
      by_cases hpos : rd data k > 0
      · refine Or.inr ⟨k, Nat.lt_succ_self k, by simp [hpos], by simp [hpos], hpos, ?_, ?_⟩
        · intro i hi
          rcases Nat.lt_succ_iff_lt_or_eq.mp hi with hlt | heq
          · exact le_trans (h3 i hlt) (le_of_lt hpos)
          · rw [heq]
        · intro i hi
          exact lt_of_le_of_lt (h3 i hi) hpos
      · refine Or.inl ⟨by simp [hpos], by simp [hpos], ?_⟩
        intro i hi
        rcases Nat.lt_succ_iff_lt_or_eq.mp hi with hlt | heq
        · exact h3 i hlt
        · rw [heq]; exact not_lt.mp hpos
    · rw [h1, h2]
      by_cases hgt : rd data k > rd data m
      · refine Or.inr ⟨k, Nat.lt_succ_self k, by simp [hgt], by simp [hgt],
          lt_trans h3 hgt, ?_, ?_⟩
        · intro i hi
          rcases Nat.lt_succ_iff_lt_or_eq.mp hi with hlt | heq
          · exact le_trans (h4 i hlt) (le_of_lt hgt)
          · rw [heq]
        · intro i hi
          exact lt_of_le_of_lt (h4 i hi) hgt
      · refine Or.inr ⟨m, Nat.lt_succ_of_lt hm, by simp [hgt], by simp [hgt], h3, ?_, h5⟩
        intro i hi
        rcases Nat.lt_succ_iff_lt_or_eq.mp hi with hlt | heq
        · exact h4 i hlt
        · rw [heq]; exact not_lt.mp hgt

/-- With a positive entry among the first `k`, the loop has assigned `max_index`
the first index attaining the maximum of these entries. -/
theorem CCELossNode.forwardScan_max_index (log : α → α) (n : CCELossNode α) (data : List α)
    (k m : Nat) (hm : m < k) (hpos : 0 < rd data m)
    (hge : ∀ i, i < k → rd data i ≤ rd data m) (hfirst : ∀ i, i < m → rd data i < rd data m) :
    (forLoop k (n.forwardStep log data)
      { max := 0, max_index := none, loss_ := 0, active_ := n.active_ }).max_index = some m := by
  rcases CCELossNode.forwardScan_max log n data
    { max := 0, max_index := none, loss_ := 0, active_ := n.active_ } rfl rfl k with
    ⟨_, _, h3⟩ | ⟨m', hm', h1, _, _, h4, h5⟩
  · exact absurd hpos (not_lt.mpr (h3 m hm))
  · rw [h1]
    rcases Nat.lt_trichotomy m' m with hlt | heq | hgt
    · exact absurd (hfirst m' hlt) (not_lt.mpr (h4 m hm))
    · rw [heq]
    · exact absurd (h5 m hgt) (not_lt.mpr (hge m' hm'))

/-- With a one-hot target the loop leaves the hot index in `active_`. -/
theorem CCELossNode.forwardScan_active (log : α → α) (n : CCELossNode α) (data : List α)
    (s : CCEScan α) (hot k : Nat) (hhot : rd n.target_ hot ≠ 0)
    (hcold : ∀ i, i < k → i ≠ hot → rd n.target_ i = 0) :
    (forLoop k (n.forwardStep log data) s).active_ = if hot < k then hot else s.active_ := by
  induction k with
  | zero => simp [forLoop]
  | succ k ih =>
    rw [forLoop_succ, CCELossNode.forwardStep_active,
      ih (fun i hi => hcold i (Nat.lt_succ_of_lt hi))]
    by_cases hk : k = hot
    · subst hk; simp [hhot]
    · have h1 : hot < k + 1 ↔ hot < k := by omega
      simp [hcold k (Nat.lt_succ_self k) hk, h1]

/-- C19. Prediction tally in `CCELossNode::forward`: for a prediction vector
with a strictly positive entry, whose maximum is first attained at index `m`,
and a one-hot target with hot index `k`, one call increments `correct_` by one
and leaves `incorrect_` if `m = k`, and otherwise increments `incorrect_` by
one and leaves `correct_`; it adds `loss_` to `cummulative_loss_`. -/
theorem CCELossNode.forward_tally (log : α → α) (uninit : Nat) (n : CCELossNode α)
    (data : List α) (k m : Nat) (hk : k < n.input_size_) (hhot : rd n.target_ k = 1)
    (hcold : ∀ i, i < n.input_size_ → i ≠ k → rd n.target_ i = 0)
    (hpos : ∃ j, j < n.input_size_ ∧ 0 < rd data j)
    (hm : m < n.input_size_) (hge : ∀ i, i < n.input_size_ → rd data i ≤ rd data m)
    (hfirst : ∀ i, i < m → rd data i < rd data m) :
    (m = k → (n.forward log uninit data).correct_ = n.correct_ + 1
        ∧ (n.forward log uninit data).incorrect_ = n.incorrect_)
    ∧ (m ≠ k → (n.forward log uninit data).incorrect_ = n.incorrect_ + 1
        ∧ (n.forward log uninit data).correct_ = n.correct_)
    ∧ (n.forward log uninit data).cummulative_loss_
        = n.cummulative_loss_ + (n.forward log uninit data).loss_ := by
  obtain ⟨j, hj, hjpos⟩ := hpos
  have hmpos : 0 < rd data m := lt_of_lt_of_le hjpos (hge j hj)
  have hidx := CCELossNode.forwardScan_max_index log n data n.input_size_ m hm hmpos hge hfirst
  have hact := CCELossNode.forwardScan_active log n data
    { max := 0, max_index := none, loss_ := 0, active_ := n.active_ } k n.input_size_
    (by rw [hhot]; exact one_ne_zero) hcold
  simp only [hk, if_true] at hact
  refine ⟨fun hmk => ?_, fun hmk => ?_, CCELossNode.forward_cummulative_loss log uninit n data⟩
  · simp only [CCELossNode.forward, CCELossNode.forwardScan, hidx, hact, Option.getD_some, hmk,
      if_true]
    exact ⟨trivial, trivial⟩
  · simp only [CCELossNode.forward, CCELossNode.forwardScan, hidx, hact, Option.getD_some, hmk,
      if_false]
    exact ⟨trivial, trivial⟩

theorem FFNode.forward_softmax_pos (n : FFNode ℝ) (inputs : List ℝ) (hwf : n.wf)
    (hact : n.activation_ = Activation.Softmax) (i : Nat) (hi : i < n.output_size_) :
    0 < rd (n.forward Real.exp inputs).activations_ i := by
  rw [FFNode.forward_activations_softmax Real.exp n inputs hact hwf.activations_size i hi]
  exact div_pos (Real.exp_pos _)
    (Finset.sum_pos (fun k _ => Real.exp_pos _) (Finset.nonempty_range_iff.mpr (by omega)))

theorem gradedReLU_wf : (gradedReLU : FFNode α).wf := by
  constructor <;> simp [gradedReLU, sampleReLU, FFNode.new]

/-- Witness of C16 on the layer `sampleReLU`, whose biases are `[1, 1]`, and the
input `[0, 0]`: the activation of output `0` is the bias `1`. -/
theorem FFNode.forward_zero_input_witness :
    (sampleReLU : FFNode ℚ).wf
    ∧ (sampleReLU : FFNode ℚ).activation_ = Activation.ReLU
    ∧ (∀ i, i < (sampleReLU : FFNode ℚ).output_size_ → 0 < rd (sampleReLU : FFNode ℚ).biases_ i)
    ∧ (∀ j, j < (sampleReLU : FFNode ℚ).input_size_ → rd ([0, 0] : List ℚ) j = 0)
    ∧ rd ((sampleReLU : FFNode ℚ).forward id [0, 0]).activations_ 0 = 1 := by
  have hb : ∀ i, i < (sampleReLU : FFNode ℚ).output_size_ →
      0 < rd (sampleReLU : FFNode ℚ).biases_ i := by
    intro i hi
    have hi2 : i < 2 := hi
    interval_cases i <;> simp [sampleReLU, FFNode.new, rd]
  have hz : ∀ j, j < (sampleReLU : FFNode ℚ).input_size_ → rd ([0, 0] : List ℚ) j = 0 := by
    intro j hj
    have hj2 : j < 2 := hj
    interval_cases j <;> simp [rd]
  refine ⟨sampleReLU_wf, rfl, hb, hz, ?_⟩
  rw [FFNode.forward_zero_input id sampleReLU [0, 0] sampleReLU_wf rfl hb hz 0 (by decide)]
  simp [sampleReLU, FFNode.new, rd]

/-- Witness of C17 on the layer `gradedReLU` after `forward([1, 1])` and
`reverse([5, 7])`. -/
theorem FFNode.reverse_accumulates_witness :
    ((gradedReLU : FFNode ℚ).forward id [1, 1]).wf
    ∧ (∀ i, i < ((gradedReLU : FFNode ℚ).forward id [1, 1]).output_size_ →
        rd (((gradedReLU : FFNode ℚ).forward id [1, 1]).reverse [5, 7]).bias_gradients_ i
          = rd ((gradedReLU : FFNode ℚ).forward id [1, 1]).bias_gradients_ i
            + rd (((gradedReLU : FFNode ℚ).forward id [1, 1]).reverse [5, 7]).activation_gradients_
                i) :=
  ⟨FFNode.forward_wf id gradedReLU [1, 1] gradedReLU_wf,
    (FFNode.reverse_accumulates ((gradedReLU : FFNode ℚ).forward id [1, 1]) [5, 7]
      (FFNode.forward_wf id gradedReLU [1, 1] gradedReLU_wf)).1⟩

/-- Witness of C18 on the layer `gradedReLU` after `forward([1, 1])` and
`reverse([5, 7])`, input index `1`. -/
theorem FFNode.reverse_input_gradients_overwritten_witness :
    ((gradedReLU : FFNode ℚ).forward id [1, 1]).wf
    ∧ 1 < ((gradedReLU : FFNode ℚ).forward id [1, 1]).input_size_
    ∧ rd (((gradedReLU : FFNode ℚ).forward id [1, 1]).reverse [5, 7]).input_gradients_ 1
        = ∑ i in Finset.range ((gradedReLU : FFNode ℚ).forward id [1, 1]).output_size_,
            rd ((gradedReLU : FFNode ℚ).forward id [1, 1]).weights_
                (i * ((gradedReLU : FFNode ℚ).forward id [1, 1]).input_size_ + 1)
              * rd (((gradedReLU : FFNode ℚ).forward id [1, 1]).reverse
                  [5, 7]).activation_gradients_ i :=
  ⟨FFNode.forward_wf id gradedReLU [1, 1] gradedReLU_wf, by decide,
    (FFNode.reverse_input_gradients_overwritten ((gradedReLU : FFNode ℚ).forward id [1, 1])
      [5, 7] (FFNode.forward_wf id gradedReLU [1, 1] gradedReLU_wf) 1 (by decide)).1⟩

/-- Witness of C19 on `unitLoss` and the prediction `[1]`: the maximum is
attained at the hot index `0` and `correct_` becomes `1`. -/
theorem CCELossNode.forward_tally_witness :
    ((unitLoss : CCELossNode ℝ).forward Real.log 0 [1]).correct_ = 1
    ∧ ((unitLoss : CCELossNode ℝ).forward Real.log 0 [1]).incorrect_ = 0 :=
  (CCELossNode.forward_tally Real.log 0 (unitLoss : CCELossNode ℝ) [1] 0 0 (by decide)
    (by simp [unitLoss, CCELossNode.new, CCELossNode.set_target, rd])
    (fun i hi hne => absurd (Nat.lt_one_iff.mp hi) hne)
    ⟨0, by decide, by simp [rd]⟩ (by decide)
    (fun i hi => by rw [Nat.lt_one_iff.mp hi])
    (fun i hi => absurd hi (Nat.not_lt_zero i))).1 rfl

/-! ## One training step on the graph of `create_model` -/

theorem create_model_nodes (mnist : MNIST α) (hidden output : FFNode α) (loss : CCELossNode α) :
    (create_model mnist hidden output loss).nodes_
      = [{ name_ := "mnist", antecedents_ := [], subsequents_ := [1], self := Derived.mnist mnist },
         { name_ := "hidden", antecedents_ := [0], subsequents_ := [2], self := Derived.ff hidden },
         { name_ := "output", antecedents_ := [1], subsequents_ := [3], self := Derived.ff output },
         { name_ := "loss", antecedents_ := [2], subsequents_ := [], self := Derived.cce loss }] := by
  simp [create_model, Model.add_node, Model.create_edge, Model.updateNode]

theorem FFNode.reverse_activation_gradients_relu (n : FFNode α) (gradients : List α)
    (hwf : n.wf) (hact : n.activation_ = Activation.ReLU) (i : Nat) (hi : i < n.output_size_) :
    rd (n.reverse gradients).activation_gradients_ i
      = rd gradients i * (if rd n.activations_ i > 0 then 0 else 1) := by
  simp only [FFNode.reverse, hact]
  rw [rd_forLoop_set_const
    (fun i => rd gradients i * (if rd n.activations_ i > 0 then 0 else 1))]
  simp [hi, hwf.activation_gradients_size]

theorem FFNode.reverse_activation_gradients_softmax (n : FFNode α) (gradients : List α)
    (hwf : n.wf) (hact : n.activation_ = Activation.Softmax) (i : Nat)
    (hi : i < n.output_size_) :
    rd (n.reverse gradients).activation_gradients_ i
      = ∑ j in Finset.range n.output_size_,
          if i = j then rd n.activations_ i * (1 - rd n.activations_ i) * rd gradients j
          else -rd n.activations_ i * rd n.activations_ j * rd gradients j := by
  simp only [FFNode.reverse, hact]
  rw [rd_forLoop_set_const (fun i =>
    forLoop n.output_size_ (fun j acc =>
      if i = j then acc + rd n.activations_ i * (1 - rd n.activations_ i) * rd gradients j
      else acc + -rd n.activations_ i * rd n.activations_ j * rd gradients j) 0)]
  simp only [hi, hwf.activation_gradients_size, and_self, if_true]
  rw [forLoop_congr n.output_size_ _ (fun j acc => acc +
    (if i = j then rd n.activations_ i * (1 - rd n.activations_ i) * rd gradients j
      else -rd n.activations_ i * rd n.activations_ j * rd gradients j))
    0 (fun j _ acc => by by_cases h : i = j <;> simp [h]), forLoop_add, zero_add]

theorem FFNode.reverse_wf (n : FFNode α) (gradients : List α) (h : n.wf) :
    (n.reverse gradients).wf := by
  refine ⟨h.weights_size, h.biases_size, h.activations_size, ?_, ?_, ?_, ?_⟩
  · simp only [FFNode.reverse]
    rw [(FFNode.weight_gradients_loop n.input_size_ n.output_size_ n.last_input_ _
      n.weight_gradients_ h.weight_gradients_size n.input_size_ (Nat.le_refl _)).1]
    exact h.weight_gradients_size
  · simp only [FFNode.reverse]
    rw [length_forLoop_set (fun i bg => rd bg i + rd _ i)]
    exact h.bias_gradients_size
  · simp only [FFNode.reverse]
    cases n.activation_
    · simp only []
      rw [length_forLoop_set (fun i _ =>
        rd gradients i * (if rd n.activations_ i > 0 then 0 else 1))]
      exact h.activation_gradients_size
    · simp only []
      rw [length_forLoop_set (fun i _ =>
        forLoop n.output_size_ (fun j acc =>
          if i = j then acc + rd n.activations_ i * (1 - rd n.activations_ i) * rd gradients j
          else acc + -rd n.activations_ i * rd n.activations_ j * rd gradients j) 0)]
      exact h.activation_gradients_size
  · simp only [FFNode.reverse]
    have hlen : ∀ (ag : List α) (k : Nat) (ig : List α),
        (forLoop k (fun i ig =>
          let offset := i * n.input_size_
          forLoop n.input_size_ (fun j ig =>
            ig.set j (rd ig j + rd n.weights_ (offset + j) * rd ag i)) ig) ig).length
          = ig.length := by
      intro ag k ig
      induction k with
      | zero => rfl
      | succ k ih =>
        rw [forLoop_succ]
        simp only
        rw [length_forLoop_set
          (fun j a => rd a j + rd n.weights_ (k * n.input_size_ + j) * rd ag k), ih]
    rw [hlen, List.length_map]
    exact h.input_gradients_size

theorem rd_replicate_zero (n i : Nat) : rd (List.replicate n (0 : α)) i = 0 := by
  simp only [rd, List.getD_eq_getElem?_getD, List.getElem?_replicate]
  split <;> rfl

theorem zeroOutput_wf : (zeroOutput : FFNode α).wf := by
  constructor <;> simp [zeroOutput, FFNode.new]

theorem zeroOutput_z (y : List α) (k : Nat) : (zeroOutput : FFNode α).z y k = 0 := by
  rw [FFNode.z_eq]
  simp only [zeroOutput, FFNode.new, rd_replicate_zero, zero_mul, Finset.sum_const_zero,
    add_zero]

/-! ## Gradient buffers between the passes -/

/-- Two buffers of the same size with the same elements are equal. -/
theorem list_eq_of_rd (l1 l2 : List α) (hlen : l1.length = l2.length)
    (h : ∀ i, i < l1.length → rd l1 i = rd l2 i) : l1 = l2 := by
  apply List.ext_getElem hlen
  intro i h1 h2
  have := h i h1
  simp only [rd, List.getD_eq_getElem?_getD, List.getElem?_eq_getElem h1,
    List.getElem?_eq_getElem h2, Option.getD_some] at this
  exact this

/-- With an all-zero upstream gradient `reverse` computes all-zero
pre-activation gradients, for both activation kinds. -/
theorem FFNode.reverse_activation_gradients_zero (n : FFNode α) (gradients : List α)
    (hwf : n.wf) (hzero : ∀ j, j < n.output_size_ → rd gradients j = 0)
    (i : Nat) (hi : i < n.output_size_) :
    rd (n.reverse gradients).activation_gradients_ i = 0 := by
  cases hact : n.activation_ with
  | ReLU =>
    rw [n.reverse_activation_gradients_relu gradients hwf hact i hi, hzero i hi, zero_mul]
  | Softmax =>
    rw [n.reverse_activation_gradients_softmax gradients hwf hact i hi]
    refine Finset.sum_eq_zero (fun j hj => ?_)
    rw [hzero j (Finset.mem_range.mp hj)]
    split <;> simp

/-- C21. Gradient buffers are zeroed by the optimizer only: `FFNode::forward`
leaves `weights_`, `biases_`, `weight_gradients_` and `bias_gradients_`
unchanged; `FFNode::reverse` leaves `weights_` and `biases_` unchanged and does
not reset the two gradient buffers: with an all-zero upstream gradient it
leaves `weight_gradients_` and `bias_gradients_` exactly as they were (on a
Softmax layer, and on a ReLU layer as well). -/
theorem FFNode.gradient_buffers_kept (exp : α → α) (n : FFNode α) (inputs gradients : List α) :
    ((n.forward exp inputs).weights_ = n.weights_
      ∧ (n.forward exp inputs).biases_ = n.biases_
      ∧ (n.forward exp inputs).weight_gradients_ = n.weight_gradients_
      ∧ (n.forward exp inputs).bias_gradients_ = n.bias_gradients_)
    ∧ ((n.reverse gradients).weights_ = n.weights_
      ∧ (n.reverse gradients).biases_ = n.biases_)
    ∧ (n.wf → (∀ j, j < n.output_size_ → rd gradients j = 0) →
        (n.reverse gradients).weight_gradients_ = n.weight_gradients_
        ∧ (n.reverse gradients).bias_gradients_ = n.bias_gradients_) := by
  refine ⟨⟨rfl, rfl, rfl, rfl⟩, ⟨rfl, rfl⟩, fun hwf hzero => ⟨?_, ?_⟩⟩
  · have hwf2 := n.reverse_wf gradients hwf
    have hlen : (n.reverse gradients).weight_gradients_.length = n.weight_gradients_.length := by
      rw [hwf2.weight_gradients_size, hwf.weight_gradients_size]; rfl
    refine list_eq_of_rd _ _ hlen (fun k hk => ?_)
    rw [hlen, hwf.weight_gradients_size] at hk
    have hin : 0 < n.input_size_ := by
      rcases Nat.eq_zero_or_pos n.input_size_ with h0 | h0
      · rw [h0] at hk; simp at hk
      · exact h0
    have hrow : k / n.input_size_ < n.output_size_ :=
      Nat.div_lt_of_lt_mul (by rw [Nat.mul_comm]; exact hk)
    have hdm : k / n.input_size_ * n.input_size_ + k % n.input_size_ = k := by
      rw [Nat.mul_comm]; exact Nat.div_add_mod k n.input_size_
    have h := n.reverse_weight_gradients gradients hwf (k / n.input_size_) (k % n.input_size_)
      hrow (Nat.mod_lt _ hin)
    rw [hdm, n.reverse_activation_gradients_zero gradients hwf hzero _ hrow, mul_zero,
      add_zero] at h
    exact h
  · have hwf2 := n.reverse_wf gradients hwf
    have hlen : (n.reverse gradients).bias_gradients_.length = n.bias_gradients_.length := by
      rw [hwf2.bias_gradients_size, hwf.bias_gradients_size]; rfl
    refine list_eq_of_rd _ _ hlen (fun i hi => ?_)
    rw [hlen, hwf.bias_gradients_size] at hi
    rw [n.reverse_bias_gradients gradients i,
      n.reverse_activation_gradients_zero gradients hwf hzero i hi]
    simp

theorem gradedSoftmax_wf : (gradedSoftmax : FFNode α).wf := by
  constructor <;> simp [gradedSoftmax, sampleSoftmax, FFNode.new]

/-- Witness of C21 on the Softmax layer `gradedSoftmax` after `forward([1, 1])`
and the upstream gradient `[0, 0]`: the gradient buffers stay `[2, 0, 0, 0]`
and `[0, 4]`. -/
theorem FFNode.gradient_buffers_kept_witness :
    (((gradedSoftmax : FFNode ℝ).forward Real.exp [1, 1]).reverse [0, 0]).weight_gradients_
        = [2, 0, 0, 0]
    ∧ (((gradedSoftmax : FFNode ℝ).forward Real.exp [1, 1]).reverse [0, 0]).bias_gradients_
        = [0, 4] := by
  have hz : ∀ j, j < ((gradedSoftmax : FFNode ℝ).forward Real.exp [1, 1]).output_size_ →
      rd ([0, 0] : List ℝ) j = 0 := by
    intro j hj
    have hj2 : j < 2 := hj
    interval_cases j <;> simp [rd]
  have h := (FFNode.gradient_buffers_kept Real.exp
    ((gradedSoftmax : FFNode ℝ).forward Real.exp [1, 1]) [] [0, 0]).2.2
    (FFNode.forward_wf Real.exp gradedSoftmax [1, 1] gradedSoftmax_wf) hz
  exact ⟨h.1, h.2⟩

/-! ## The optimizer applied twice -/

theorem halfSoftmax_wf : (halfSoftmax : FFNode α).wf := by
  constructor <;> simp [halfSoftmax, FFNode.new]

theorem underflowSoftmax_wf : (underflowSoftmax : FFNode α).wf := by
  constructor <;> simp [underflowSoftmax, FFNode.new]

/-- Every output of a Softmax layer is positive when `exp` is. -/
theorem FFNode.forward_softmax_pos_of_exp (exp : α → α) (hexp : ∀ x, 0 < exp x) (n : FFNode α)
    (inputs : List α) (hwf : n.wf) (hact : n.activation_ = Activation.Softmax) (i : Nat)
    (hi : i < n.output_size_) : 0 < rd (n.forward exp inputs).activations_ i := by
  rw [FFNode.forward_activations_softmax exp n inputs hact hwf.activations_size i hi]
  exact div_pos (hexp _)
    (Finset.sum_pos (fun k _ => hexp _) (Finset.nonempty_range_iff.mpr (by omega)))

/-- The gradient `CCELossNode::reverse` hands to a Softmax layer whose outputs
it has as `last_input_`, and the pre-activation gradient the layer computes
from it, when no output is `0` and the target is one-hot. -/
theorem FFNode.reverse_after_cce (n : FFNode α) (c : CCELossNode α) (data : List α) (k : Nat)
    (hwf : n.wf) (hact : n.activation_ = Activation.Softmax) (hcwf : c.wf)
    (hsize : c.input_size_ = n.output_size_) (hin : c.last_input_ = n.activations_)
    (hk : k < n.output_size_) (hhot : rd c.target_ k = 1)
    (hcold : ∀ j, j < n.output_size_ → j ≠ k → rd c.target_ j = 0)
    (hne : ∀ j, j < n.output_size_ → rd n.activations_ j ≠ 0) :
    ∃ c', c.reverse data = some c'
      ∧ c' = { c with gradients_ := c'.gradients_ }
      ∧ ∀ i, i < n.output_size_ →
        rd (n.reverse c'.gradients_).activation_gradients_ i
          = c.inv_batch_size_ * (rd n.activations_ i - rd c.target_ i) := by
  have hne' : ∀ i, i < c.input_size_ → rd c.last_input_ i ≠ 0 := by
    intro i hi
    rw [hin]
    exact hne i (hsize ▸ hi)
  refine ⟨_, c.reverse_eq_some data hne', rfl, fun i hi => ?_⟩
  have hg : ∀ j, j < n.output_size_ →
      rd (forLoop c.input_size_ (fun i g =>
          g.set i (-c.inv_batch_size_ * rd c.target_ i / rd c.last_input_ i)) c.gradients_) j
        = -c.inv_batch_size_ * rd c.target_ j / rd n.activations_ j := by
    intro j hj
    rw [rd_forLoop_set_const
      (fun i => -c.inv_batch_size_ * rd c.target_ i / rd c.last_input_ i), hin]
    have hj1 : j < c.input_size_ := hsize ▸ hj
    have hj2 : j < c.gradients_.length := by rw [hcwf]; exact hj1
    simp only [hj1, hj2, and_self, if_true]
  rw [n.reverse_activation_gradients_softmax _ hwf hact i hi]
  rw [Finset.sum_eq_single k]
  · rw [hg k hk, hhot]
    have hak := hne k hk
    by_cases hik : i = k
    · subst hik
      rw [if_pos rfl, hhot]
      field_simp
      ring
    · rw [if_neg hik, hcold i hi hik]
      field_simp
      ring
  · intro j hj hjk
    rw [hg j (Finset.mem_range.mp hj), hcold j (Finset.mem_range.mp hj) hjk]
    split <;> simp
  · intro hk'
    exact absurd (Finset.mem_range.mpr hk) hk'

/-- C23 (as amended). Softmax under cross-entropy: for a Softmax `FFNode`
whose outputs `a` are the `last_input_` of a `CCELossNode` with a one-hot
target `q` (hot index `k`), if no output `a[j]` is `0`, then
`CCELossNode::reverse` produces a gradient from which the layer's `reverse`
computes `activation_gradients_[i] = inv_batch_size_ * (a[i] - q[i])` for every
output index `i`, where `inv_batch_size_` is the `1 / batch_size` of the
constructor. The condition holds for the outputs `forward` computes whenever
`exp` is positive. -/
theorem FFNode.softmax_cce_gradient (n : FFNode α) (k : Nat) (hwf : n.wf)
    (hact : n.activation_ = Activation.Softmax) (hk : k < n.output_size_) :
    (∀ (c : CCELossNode α) (data : List α), c.wf → c.input_size_ = n.output_size_ →
        c.last_input_ = n.activations_ → rd c.target_ k = 1 →
        (∀ j, j < n.output_size_ → j ≠ k → rd c.target_ j = 0) →
        (∀ j, j < n.output_size_ → rd n.activations_ j ≠ 0) →
        ∃ c', c.reverse data = some c'
          ∧ ∀ i, i < n.output_size_ →
            rd (n.reverse c'.gradients_).activation_gradients_ i
              = c.inv_batch_size_ * (rd n.activations_ i - rd c.target_ i))
    ∧ (∀ (exp : α → α) (inputs : List α) (c : CCELossNode α) (data : List α),
        (∀ x, 0 < exp x) → c.wf → c.input_size_ = n.output_size_ →
        c.last_input_ = (n.forward exp inputs).activations_ → rd c.target_ k = 1 →
        (∀ j, j < n.output_size_ → j ≠ k → rd c.target_ j = 0) →
        ∃ c', c.reverse data = some c'
          ∧ ∀ i, i < n.output_size_ →
            rd ((n.forward exp inputs).reverse c'.gradients_).activation_gradients_ i
              = c.inv_batch_size_ * (rd (n.forward exp inputs).activations_ i - rd c.target_ i))
    ∧ ∀ (input_size batch_size : Nat) (loss : α) (target last_input : List α) (active : Nat),
        (CCELossNode.new input_size batch_size loss target last_input active).inv_batch_size_
          = 1 / (batch_size : α) := by
  refine ⟨?_, ?_, fun _ _ _ _ _ _ => rfl⟩
  · intro c data hcwf hsize hin hhot hcold hne
    obtain ⟨c', h1, _, h2⟩ := n.reverse_after_cce c data k hwf hact hcwf hsize hin hk hhot hcold hne
    exact ⟨c', h1, h2⟩
  · intro exp inputs c data hexp hcwf hsize hin hhot hcold
    obtain ⟨c', h1, _, h2⟩ := (n.forward exp inputs).reverse_after_cce c data k
      (n.forward_wf exp inputs hwf) hact hcwf hsize hin hk hhot hcold
      (fun j hj => ne_of_gt (FFNode.forward_softmax_pos_of_exp exp hexp n inputs hwf hact j hj))
    exact ⟨c', h1, h2⟩

/-- C23 (as stated) fails when an output other than the hot one is `0`: the
layer `underflowSoftmax` has outputs `a = [1, 0]`, the loss node
`zeroInputLoss` has them as `last_input_` with the one-hot target `[1, 0]`, so
`a[0] = 1` is not `0`; `CCELossNode::reverse` divides `-1 * 0` by `a[1] = 0`,
which has no value, and there is no gradient from which the layer could compute
`inv_batch_size_ * (a[i] - q[i])`. -/
theorem FFNode.softmax_cce_gradient_counterexample :
    (underflowSoftmax : FFNode ℚ).activation_ = Activation.Softmax
    ∧ (underflowSoftmax : FFNode ℚ).wf
    ∧ (zeroInputLoss : CCELossNode ℚ).wf
    ∧ (zeroInputLoss : CCELossNode ℚ).input_size_ = (underflowSoftmax : FFNode ℚ).output_size_
    ∧ (zeroInputLoss : CCELossNode ℚ).last_input_ = (underflowSoftmax : FFNode ℚ).activations_
    ∧ (zeroInputLoss : CCELossNode ℚ).target_ = [1, 0]
    ∧ rd (underflowSoftmax : FFNode ℚ).activations_ 0 ≠ 0
    ∧ fdiv (-(zeroInputLoss : CCELossNode ℚ).inv_batch_size_
          * rd (zeroInputLoss : CCELossNode ℚ).target_ 1)
        (rd (underflowSoftmax : FFNode ℚ).activations_ 1) = none
    ∧ ¬ ∃ c', (zeroInputLoss : CCELossNode ℚ).reverse [] = some c'
        ∧ ∀ i, i < (underflowSoftmax : FFNode ℚ).output_size_ →
          rd ((underflowSoftmax : FFNode ℚ).reverse c'.gradients_).activation_gradients_ i
            = (zeroInputLoss : CCELossNode ℚ).inv_batch_size_
              * (rd (underflowSoftmax : FFNode ℚ).activations_ i
                - rd (zeroInputLoss : CCELossNode ℚ).target_ i) := by
  have h1 : rd (zeroInputLoss : CCELossNode ℚ).last_input_ 1 = 0 := by
    simp [zeroInputLoss, CCELossNode.new, rd]
  refine ⟨rfl, underflowSoftmax_wf, rfl, rfl, rfl, rfl, ?_, ?_, ?_⟩
  · simp [underflowSoftmax, rd]
  · simp [underflowSoftmax, rd, fdiv]
  · rintro ⟨c', hc', _⟩
    rw [CCELossNode.reverse_eq_none zeroInputLoss [] 1 (by decide) h1] at hc'
    cases hc'

/-- Witness of C23 on the layer `halfSoftmax` with outputs `[1/2, 1/2]` under
the loss node `halfInputLoss` with batch size `2` and target `[1, 0]`: the
pre-activation gradient is `[1/2 * (1/2 - 1), 1/2 * (1/2 - 0)]`. -/
theorem FFNode.softmax_cce_gradient_witness :
    ∃ c', (halfInputLoss : CCELossNode ℚ).reverse [] = some c'
      ∧ rd ((halfSoftmax : FFNode ℚ).reverse c'.gradients_).activation_gradients_ 0
          = 1 / 2 * (1 / 2 - 1)
      ∧ rd ((halfSoftmax : FFNode ℚ).reverse c'.gradients_).activation_gradients_ 1
          = 1 / 2 * (1 / 2 - 0) := by
  have hcold : ∀ j, j < (halfSoftmax : FFNode ℚ).output_size_ → j ≠ 0 →
      rd (halfInputLoss : CCELossNode ℚ).target_ j = 0 := by
    intro j hj hj0
    have hj2 : j < 2 := hj
    interval_cases j
    · exact absurd rfl hj0
    · simp [halfInputLoss, rd]
  have hne : ∀ j, j < (halfSoftmax : FFNode ℚ).output_size_ →
      rd (halfSoftmax : FFNode ℚ).activations_ j ≠ 0 := by
    intro j hj
    have hj2 : j < 2 := hj
    interval_cases j <;> simp [halfSoftmax, rd]
  obtain ⟨c', h1, h2⟩ := (FFNode.softmax_cce_gradient (halfSoftmax : FFNode ℚ) 0 halfSoftmax_wf
    rfl (by decide)).1 halfInputLoss [] rfl rfl rfl (by simp [halfInputLoss, rd]) hcold hne
  refine ⟨c', h1, ?_, ?_⟩
  · rw [h2 0 (by decide)]
    simp [halfInputLoss, halfSoftmax, CCELossNode.new, rd]
  · rw [h2 1 (by decide)]
    simp [halfInputLoss, halfSoftmax, CCELossNode.new, rd]

/-! ## The parameter count in the integer types of the source -/

/-- Below `2^31` the `int` product of `FFNode::param_count` is exact. -/
theorem FFNode.param_count_size_t_eq (n : FFNode α)
    (hrange : (n.input_size_ + 1) * n.output_size_ < 2 ^ 31) :
    n.param_count_size_t = n.param_count := by
  simp only [FFNode.param_count_size_t, FFNode.param_count, int_mul, size_t_of_int]
  generalize hp : (n.input_size_ + 1) * n.output_size_ = p at hrange
  have hcast : ((n.input_size_ : Int) + 1) * (n.output_size_ : Int) = (p : Int) := by
    rw [← hp]; push_cast; ring
  rw [hcast]
  omega

theorem wideLayer_wf : (wideLayer : FFNode α).wf := by
  constructor <;> simp only [wideLayer, FFNode.new, List.length_replicate]

/-- C7 (as amended). Parameter addressing of `FFNode`, for a layer whose
parameter count `(input_size + 1) * output_size` is below `2^31`, the range of
the `int` in which `param_count()` computes it: `param_count()` is
`output_size*input_size + output_size`; an index `k` below
`output_size*input_size` addresses through `param` the weight of row
`k / input_size` and column `k mod input_size` (stored at
`weights_[row*input_size + column]`) and through `gradient` the weight gradient
of the same entry; an index `k` from `output_size*input_size` up to
`param_count()` addresses bias `k - output_size*input_size` and its bias
gradient; every index below `param_count()` is in bounds, distinct indices
address distinct scalars, and every weight and every bias is addressed. -/
theorem FFNode.param_addressing (n : FFNode α) (hwf : n.wf)
    (hrange : (n.input_size_ + 1) * n.output_size_ < 2 ^ 31) :
    n.param_count_size_t = n.output_size_ * n.input_size_ + n.output_size_
    ∧ (∀ k, k < n.output_size_ * n.input_size_ →
        k / n.input_size_ < n.output_size_ ∧ k % n.input_size_ < n.input_size_
        ∧ n.param k = FFRef.weights_ (k / n.input_size_ * n.input_size_ + k % n.input_size_)
        ∧ n.gradient k
            = FFRef.weight_gradients_ (k / n.input_size_ * n.input_size_ + k % n.input_size_))
    ∧ (∀ k, n.output_size_ * n.input_size_ ≤ k → k < n.param_count_size_t →
        k - n.output_size_ * n.input_size_ < n.output_size_
        ∧ n.param k = FFRef.biases_ (k - n.output_size_ * n.input_size_)
        ∧ n.gradient k = FFRef.bias_gradients_ (k - n.output_size_ * n.input_size_))
    ∧ (∀ k, k < n.param_count_size_t → (n.param k).inBounds n ∧ (n.gradient k).inBounds n)
    ∧ (∀ k l, k < n.param_count_size_t → l < n.param_count_size_t → k ≠ l →
        n.param k ≠ n.param l ∧ n.gradient k ≠ n.gradient l)
    ∧ (∀ i j, i < n.output_size_ → j < n.input_size_ →
        i * n.input_size_ + j < n.param_count_size_t
        ∧ n.param (i * n.input_size_ + j) = FFRef.weights_ (i * n.input_size_ + j)
        ∧ n.gradient (i * n.input_size_ + j) = FFRef.weight_gradients_ (i * n.input_size_ + j))
    ∧ (∀ i, i < n.output_size_ →
        n.output_size_ * n.input_size_ + i < n.param_count_size_t
        ∧ n.param (n.output_size_ * n.input_size_ + i) = FFRef.biases_ i
        ∧ n.gradient (n.output_size_ * n.input_size_ + i) = FFRef.bias_gradients_ i)
    ∧ n.param_count_size_t = n.param_count := by
  have hw := hwf.weights_size
  have hcs := n.param_count_size_t_eq hrange
  have hcount : n.param_count = n.output_size_ * n.input_size_ + n.output_size_ := by
    simp only [FFNode.param_count]; ring
  rw [hcs]
  refine ⟨hcount, fun k hk => ?_, fun k hk1 hk2 => ?_, fun k hk => ?_, fun k l _ _ hkl => ?_,
    fun i j hi hj => ?_, fun i hi => ?_, rfl⟩
  · have hin : 0 < n.input_size_ := by
      rcases Nat.eq_zero_or_pos n.input_size_ with h0 | h0
      · rw [h0] at hk; simp at hk
      · exact h0
    have hrow : k / n.input_size_ < n.output_size_ :=
      Nat.div_lt_of_lt_mul (by rw [Nat.mul_comm]; exact hk)
    have hdm : k / n.input_size_ * n.input_size_ + k % n.input_size_ = k := by
      rw [Nat.mul_comm]; exact Nat.div_add_mod k n.input_size_
    refine ⟨hrow, Nat.mod_lt _ hin, ?_, ?_⟩
    · rw [hdm]; simp [FFNode.param, hw, hk]
    · rw [hdm]; simp [FFNode.gradient, hw, hk]
  · refine ⟨by omega, ?_, ?_⟩
    · simp [FFNode.param, hw, Nat.not_lt.mpr hk1]
    · simp [FFNode.gradient, hw, Nat.not_lt.mpr hk1]
  · exact ⟨n.param_inBounds hwf k hk, n.gradient_inBounds hwf k hk⟩
  · exact ⟨fun h => hkl (n.param_injective k l h), fun h => hkl (n.gradient_injective k l h)⟩
  · have hlt : i * n.input_size_ + j < n.output_size_ * n.input_size_ := by
      calc i * n.input_size_ + j < i * n.input_size_ + n.input_size_ := by omega
        _ = (i + 1) * n.input_size_ := by ring
        _ ≤ n.output_size_ * n.input_size_ := Nat.mul_le_mul_right _ hi
    refine ⟨by omega, ?_, ?_⟩
    · simp [FFNode.param, hw, hlt]
    · simp [FFNode.gradient, hw, hlt]
  · refine ⟨by omega, ?_, ?_⟩
    · simp [FFNode.param, hw]
    · simp [FFNode.gradient, hw]

/-- C7 (as stated) fails on a layer with `2^31` parameters.  The layer
`wideLayer` has `32768 * 65535` weights and `32768` biases; `param_count()`
evaluates `(65535 + 1) * 32768 = 2^31` in `int`, where it wraps to `-2^31`,
and returns `2^64 - 2^31` as `size_t`, not
`output_size*input_size + output_size = 2^31`; the index `2^31` is below
`param_count()` and `param(2^31)` is `&biases_[32768]`, one past the end. -/
theorem FFNode.param_addressing_counterexample :
    (wideLayer : FFNode ℚ).wf
    ∧ (wideLayer : FFNode ℚ).output_size_ * (wideLayer : FFNode ℚ).input_size_
        + (wideLayer : FFNode ℚ).output_size_ = 2147483648
    ∧ (wideLayer : FFNode ℚ).param_count_size_t = 18446744071562067968
    ∧ (wideLayer : FFNode ℚ).param_count_size_t
        ≠ (wideLayer : FFNode ℚ).output_size_ * (wideLayer : FFNode ℚ).input_size_
          + (wideLayer : FFNode ℚ).output_size_
    ∧ 2147483648 < (wideLayer : FFNode ℚ).param_count_size_t
    ∧ (wideLayer : FFNode ℚ).param 2147483648 = FFRef.biases_ 32768
    ∧ (wideLayer : FFNode ℚ).biases_.length = 32768
    ∧ ¬ ((wideLayer : FFNode ℚ).param 2147483648).inBounds (wideLayer : FFNode ℚ) := by
  have hc : (wideLayer : FFNode ℚ).param_count_size_t = 18446744071562067968 := by
    simp only [FFNode.param_count_size_t, wideLayer, FFNode.new, int_mul, size_t_of_int]
    norm_num
    rfl
  have hp : (wideLayer : FFNode ℚ).param 2147483648 = FFRef.biases_ 32768 := by
    have hl : (wideLayer : FFNode ℚ).weights_.length = 2147450880 := by
      simp only [wideLayer, FFNode.new, List.length_replicate]
    rw [FFNode.param, hl, if_neg (by norm_num)]
  have hb : (wideLayer : FFNode ℚ).biases_.length = 32768 := by
    simp only [wideLayer, FFNode.new, List.length_replicate]
  refine ⟨wideLayer_wf, by simp only [wideLayer, FFNode.new], hc, ?_, ?_, hp, hb, ?_⟩
  · rw [hc]; simp only [wideLayer, FFNode.new]; norm_num
  · rw [hc]; norm_num
  · rw [hp]
    simp only [FFRef.inBounds, hb, Nat.lt_irrefl, not_false_eq_true]

/-- Witness of C7 on the layer `sampleReLU`: six parameters, index `3`
addresses the weight of row `1`, column `1`, index `5` addresses bias `1`. -/
theorem FFNode.param_addressing_witness :
    (sampleReLU : FFNode ℚ).wf
    ∧ ((sampleReLU : FFNode ℚ).input_size_ + 1) * (sampleReLU : FFNode ℚ).output_size_ < 2 ^ 31
    ∧ (sampleReLU : FFNode ℚ).param_count_size_t = 6
    ∧ (sampleReLU : FFNode ℚ).param 3 = FFRef.weights_ (1 * 2 + 1)
    ∧ (sampleReLU : FFNode ℚ).param 5 = FFRef.biases_ 1 := by
  have hr : ((sampleReLU : FFNode ℚ).input_size_ + 1) * (sampleReLU : FFNode ℚ).output_size_
      < 2 ^ 31 := by decide
  have h := FFNode.param_addressing (sampleReLU : FFNode ℚ) sampleReLU_wf hr
  exact ⟨sampleReLU_wf, hr, h.1, (h.2.1 3 (by decide)).2.2.1,
    (h.2.2.1 5 (by decide) (by rw [h.1]; decide)).2.1⟩

/-! ## The loss node: reverse pass element by element -/

/-- A loop that stores `f k` into element `k` in iteration `k`, for elements
of any type. -/
theorem getElem?_forLoop_set {β : Type} (f : Nat → β) (l : List β) (n i : Nat) :
    (forLoop n (fun k (a : List β) => a.set k (f k)) l)[i]?
      = if i < n ∧ i < l.length then some (f i) else l[i]? := by
  have hlen : ∀ k, (forLoop k (fun k (a : List β) => a.set k (f k)) l).length = l.length := by
    intro k
    induction k with
    | zero => rfl
    | succ k ih => rw [forLoop_succ, List.length_set, ih]
  induction n with
  | zero => simp [forLoop]
  | succ k ih =>
    rw [forLoop_succ, List.getElem?_set, hlen k, ih]
    by_cases hki : k = i
    · subst hki
      by_cases hl : k < l.length
      · simp [hl]
      · simp [hl, List.getElem?_eq_none (Nat.le_of_not_lt hl)]
    · have h1 : i < k + 1 ↔ i < k := by omega
      simp [hki, h1]

theorem CCELossNode.length_reverse_gradients (n : CCELossNode α) (data : List α) :
    (n.reverse_gradients data).length = n.gradients_.length := by
  have hlen : ∀ k, (forLoop k (fun i (g : List (Option α)) =>
      g.set i (fdiv (-n.inv_batch_size_ * rd n.target_ i) (rd n.last_input_ i)))
      (n.gradients_.map some)).length = n.gradients_.length := by
    intro k
    induction k with
    | zero => simp [forLoop]
    | succ k ih => rw [forLoop_succ, List.length_set, ih]
  exact hlen n.input_size_

/-- Element `i` of `gradients_` after the loop of `CCELossNode::reverse`. -/
theorem CCELossNode.reverse_gradients_getElem? (n : CCELossNode α) (hwf : n.wf)
    (data : List α) (i : Nat) (hi : i < n.input_size_) :
    (n.reverse_gradients data)[i]?
      = some (fdiv (-n.inv_batch_size_ * rd n.target_ i) (rd n.last_input_ i)) := by
  simp only [CCELossNode.reverse_gradients]
  rw [getElem?_forLoop_set
    (fun i => fdiv (-n.inv_batch_size_ * rd n.target_ i) (rd n.last_input_ i))]
  have hi2 : i < (n.gradients_.map some).length := by
    rw [List.length_map, hwf]; exact hi
  rw [if_pos ⟨hi, hi2⟩]

/-- Where `CCELossNode::reverse` has a resulting state in `α`, its `gradients_`
are the elements the loop stores. -/
theorem CCELossNode.reverse_gradients_of_reverse (n : CCELossNode α) (data : List α)
    (n' : CCELossNode α) (h : n.reverse data = some n') :
    n' = { n with gradients_ := n'.gradients_ }
    ∧ n.reverse_gradients data = n'.gradients_.map some := by
  have key : ∀ k g,
      forLoop k (fun i (g : Option (List α)) =>
        g.bind (fun g =>
          (fdiv (-n.inv_batch_size_ * rd n.target_ i) (rd n.last_input_ i)).map
            (fun q => g.set i q))) (some n.gradients_) = some g →
      forLoop k (fun i (g : List (Option α)) =>
        g.set i (fdiv (-n.inv_batch_size_ * rd n.target_ i) (rd n.last_input_ i)))
        (n.gradients_.map some) = g.map some := by
    intro k
    induction k with
    | zero =>
      intro g hg
      simp only [forLoop, Option.some.injEq] at hg ⊢
      rw [hg]
    | succ k ih =>
      intro g hg
      rw [forLoop_succ] at hg ⊢
      cases hprev : forLoop k (fun i (g : Option (List α)) =>
        g.bind (fun g =>
          (fdiv (-n.inv_batch_size_ * rd n.target_ i) (rd n.last_input_ i)).map
            (fun q => g.set i q))) (some n.gradients_) with
      | none => rw [hprev] at hg; simp at hg
      | some g0 =>
        rw [hprev] at hg
        rw [ih g0 hprev]
        cases hq : fdiv (-n.inv_batch_size_ * rd n.target_ k) (rd n.last_input_ k) with
        | none => rw [hq] at hg; simp at hg
        | some q =>
          rw [hq] at hg
          simp only [Option.some_bind, Option.map_some', Option.some.injEq] at hg
          rw [← hg, List.map_set]
  simp only [CCELossNode.reverse] at h
  cases hloop : forLoop n.input_size_ (fun i (g : Option (List α)) =>
      g.bind (fun g =>
        (fdiv (-n.inv_batch_size_ * rd n.target_ i) (rd n.last_input_ i)).map
          (fun q => g.set i q))) (some n.gradients_) with
  | none => rw [hloop] at h; simp at h
  | some g =>
    rw [hloop] at h
    simp only [Option.map_some', Option.some.injEq] at h
    subst h
    exact ⟨rfl, key n.input_size_ g hloop⟩

/-- C11 (as amended). `CCELossNode::reverse` ignores its argument and sets, for
every input index `i`, `gradients_[i]` to the quotient
`-inv_batch_size_ * target_[i] / last_input_[i]`, each index on its own, where
`inv_batch_size_` is the `1 / batch_size` of the constructor; in particular
`gradients_[i]` is `0` for every index with `target_[i] = 0` and
`last_input_[i] ≠ 0`, while at an index with `last_input_[i] = 0` the quotient
has no value and the element stored is not `0`.  The other elements are not
affected by such an index. -/
theorem CCELossNode.reverse_spec (n : CCELossNode α) (hwf : n.wf) (data data' : List α) :
    n.reverse_gradients data = n.reverse_gradients data'
    ∧ (n.reverse_gradients data).length = n.input_size_
    ∧ (∀ i, i < n.input_size_ →
        (n.reverse_gradients data)[i]?
          = some (fdiv (-n.inv_batch_size_ * rd n.target_ i) (rd n.last_input_ i)))
    ∧ (∀ i, i < n.input_size_ → rd n.last_input_ i ≠ 0 →
        (n.reverse_gradients data)[i]?
          = some (some (-n.inv_batch_size_ * rd n.target_ i / rd n.last_input_ i)))
    ∧ (∀ i, i < n.input_size_ → rd n.target_ i = 0 → rd n.last_input_ i ≠ 0 →
        (n.reverse_gradients data)[i]? = some (some 0))
    ∧ (∀ i, i < n.input_size_ → rd n.last_input_ i = 0 →
        (n.reverse_gradients data)[i]? = some none)
    ∧ (∀ n', n.reverse data = some n' →
        n' = { n with gradients_ := n'.gradients_ }
        ∧ n.reverse_gradients data = n'.gradients_.map some)
    ∧ ((∀ i, i < n.input_size_ → rd n.last_input_ i ≠ 0) →
        ∃ n', n.reverse data = some n' ∧ n.reverse data' = some n')
    ∧ ∀ (input_size batch_size : Nat) (loss : α) (target last_input : List α) (active : Nat),
        (CCELossNode.new input_size batch_size loss target last_input active).inv_batch_size_
          = 1 / (batch_size : α) := by
  refine ⟨rfl, ?_, fun i hi => n.reverse_gradients_getElem? hwf data i hi, fun i hi hne => ?_,
    fun i hi ht hne => ?_, fun i hi h0 => ?_,
    fun n' h => n.reverse_gradients_of_reverse data n' h, fun hne => ?_,
    fun _ _ _ _ _ _ => rfl⟩
  · rw [n.length_reverse_gradients data, hwf]
  · rw [n.reverse_gradients_getElem? hwf data i hi, fdiv_eq_some _ _ hne]
  · rw [n.reverse_gradients_getElem? hwf data i hi, fdiv_eq_some _ _ hne, ht, mul_zero, zero_div]
  · rw [n.reverse_gradients_getElem? hwf data i hi, (fdiv_eq_none_iff _ _).mpr h0]
  · exact ⟨_, n.reverse_eq_some data hne, n.reverse_eq_some data' hne⟩

/-- C11 (as stated) fails where `last_input_[i] = 0`: on the node `zeroInputLoss`
index `1` has `target_[1] = 0` and `last_input_[1] = 0`, the quotient
`-inv_batch_size_ * target_[1] / last_input_[1]` is `0 / 0`, which has no value,
and the loop leaves `gradients_` as `[-1, no value]`: element `1` is not `0`. -/
theorem CCELossNode.reverse_zero_input_counterexample :
    (zeroInputLoss : CCELossNode ℚ).wf
    ∧ rd (zeroInputLoss : CCELossNode ℚ).target_ 1 = 0
    ∧ rd (zeroInputLoss : CCELossNode ℚ).last_input_ 1 = 0
    ∧ (zeroInputLoss : CCELossNode ℚ).reverse_gradients [] = [some (-1), none]
    ∧ (zeroInputLoss : CCELossNode ℚ).reverse_gradients [] = [some (-1 * 1 / 1), fdiv (-1 * 0) 0]
    ∧ ((zeroInputLoss : CCELossNode ℚ).reverse_gradients [])[1]? ≠ some (some 0) := by
  have h : (zeroInputLoss : CCELossNode ℚ).reverse_gradients [] = [some (-1), none] := by
    simp [CCELossNode.reverse_gradients, forLoop, fdiv, zeroInputLoss, CCELossNode.new, rd]
  refine ⟨rfl, by simp [zeroInputLoss, CCELossNode.new, rd],
    by simp [zeroInputLoss, CCELossNode.new, rd], h, ?_, ?_⟩
  · rw [h]; simp [fdiv]
  · rw [h]; simp

/-- Witness of C11 on `partialInputLoss`, whose last input is `[1/2, 0]`: the
gradient is `-1 * 1 / (1/2) = -2` at index `0`, and index `1`, where the
quotient has no value, does not affect it. -/
theorem CCELossNode.reverse_spec_witness :
    (partialInputLoss : CCELossNode ℚ).wf
    ∧ ((partialInputLoss : CCELossNode ℚ).reverse_gradients [])[0]? = some (some (-2 : ℚ))
    ∧ ((partialInputLoss : CCELossNode ℚ).reverse_gradients [])[1]? = some none := by
  have hwf : (partialInputLoss : CCELossNode ℚ).wf := rfl
  have h := CCELossNode.reverse_spec (partialInputLoss : CCELossNode ℚ) hwf [] []
  refine ⟨hwf, ?_, ?_⟩
  · rw [h.2.2.2.1 0 (by decide) (by simp [partialInputLoss, CCELossNode.new, rd])]
    simp [partialInputLoss, CCELossNode.new, rd]
  · exact h.2.2.2.2.2.1 1 (by decide) (by simp [partialInputLoss, CCELossNode.new, rd])

/-! ## The loss node after a Softmax layer -/

end FCModel
